import Mathlib

/-!
# cmatch: segmentation, priority resolution and palette construction

A shallow embedding of `main.go` of `morentharia/cmatch`:

* `processLine` (lines 138-188): cut the line at every match endpoint and
  colour each span with the highest palette slot that covers it;
* `NewConfig` (lines 35-68) with `validateConfigPath`, `setDefaultPaletteColors`
  and `compileRegexps`.

Go strings are byte sequences, offsets are byte offsets.  The collaborators that
live outside the repository are parameters of the model: the regular expression
engine (`regexp.Compile`, `FindAllStringIndex`), the colour renderer
(`color.HEXStyle(..).String()` followed by `color.RenderString`), the file
system and YAML decoder, and the order in which a Go `range` visits a map.
A run-time panic of the Go program is an explicit `Fault`.
-/

namespace Cmatch

/-! ## Data model -/

/-- A Go `string`: a sequence of bytes. -/
abbrev GoString := List UInt8

/-- One element of the result of `FindAllStringIndex`: the two-element slice
`[start, end]` of byte offsets. -/
abbrev Interval := Nat × Nat

/-- The run-time panics the embedded code can raise. -/
inductive Fault where
  | sliceBounds
  | indexRange
  | emptyMax
  deriving DecidableEq, Repr

/-- The Go struct `Palette`; `Rx` stands for `*regexp.Regexp`. -/
structure Palette (Rx : Type) where
  Fg : String
  Bg : String
  RegexpStringList : List String
  RegexpList : List Rx

/-- An element of `Config.Match`. -/
structure MatchGroup where
  RegexpStringList : List String
  deriving DecidableEq, Repr

/-- The Go struct `Config`. -/
structure Config (Rx : Type) where
  Palette : List (Palette Rx)
  Match : List MatchGroup

/-- The entries of the map `palette2indexes`, listed in some order: slot index
and the intervals collected for that slot. -/
abbrev MatchMap := List (Nat × List Interval)

/-- The arguments of one `color.HEXStyle` call: the foreground colour and the
optional background colour. -/
structure HexStyle where
  fg : String
  bg : Option String
  deriving DecidableEq, Repr

/-- An order in which a `range` loop visits the entries of a map: any
rearrangement of the entries. -/
structure RangeOrder where
  visit : MatchMap → MatchMap
  perm : ∀ m, (visit m).Perm m

/-- The order that visits the entries as they are listed. -/
def RangeOrder.asListed : RangeOrder := ⟨fun m => m, fun _ => List.Perm.refl _⟩

/-- The order that visits the entries back to front. -/
def RangeOrder.backwards : RangeOrder := ⟨fun m => m.reverse, fun m => List.reverse_perm m⟩

/-- What `processLine` takes from outside the repository. -/
structure Env (Rx : Type) where
  /-- `r.FindAllStringIndex(line, -1)` -/
  findAll : Rx → GoString → List Interval
  /-- `color.RenderString(color.HEXStyle(..).String(), text)` -/
  render : HexStyle → GoString → GoString
  /-- the order of the `range` over the map at line 149 -/
  rangeCut : RangeOrder
  /-- the order of the `range` over the map at line 161, in span iteration `i` -/
  rangeSpan : Nat → RangeOrder

/-! ## processLine -/

/-- The slice expression `s[left:right]` on a string. -/
def slice (s : GoString) (left right : Nat) : Except Fault GoString :=
  if left ≤ right ∧ right ≤ s.length then .ok ((s.drop left).take (right - left))
  else .error .sliceBounds

/-- The index expression `xs[i]` on a slice. -/
def index {α : Type} (xs : List α) (i : Nat) : Except Fault α :=
  match xs[i]? with
  | some x => .ok x
  | none => .error .indexRange

/-- The value stored under key `i` of `palette2indexes` after the inner loop
of lines 144-146. -/
def slotMatches {Rx : Type} (findAll : Rx → GoString → List Interval) (line : GoString)
    (rs : List Rx) : List Interval :=
  rs.flatMap (fun r => findAll r line)

/-- The map built at lines 142-147, entries by ascending key: key `i` is
present when slot `i` has at least one compiled expression. -/
def palette2indexes {Rx : Type} (findAll : Rx → GoString → List Interval) (Cfg : Config Rx)
    (line : GoString) : MatchMap :=
  (Cfg.Palette.enum.filter (fun e => !e.2.RegexpList.isEmpty)).map
    (fun e => (e.1, slotMatches findAll line e.2.RegexpList))

/-- The slice `indexes` after the loop of lines 148-153. -/
def collectIndexes (line : GoString) (m : MatchMap) : List Nat :=
  [0, line.length] ++ m.flatMap (fun e => e.2.flatMap (fun interval => [interval.1, interval.2]))

/-- The loop of `funk.UniqInt`, with the values seen so far. -/
def uniqIntFrom (seen : List Nat) : List Nat → List Nat
  | [] => []
  | v :: rest => if v ∈ seen then uniqIntFrom seen rest else v :: uniqIntFrom (v :: seen) rest

/-- The library function `funk.UniqInt`: keep the first occurrence of every value. -/
def uniqInt (a : List Nat) : List Nat := uniqIntFrom [] a

/-- The library function `sort.Ints`: ascending order. -/
def sortInts (a : List Nat) : List Nat := a.insertionSort (· ≤ ·)

/-- The cut points: `indexes` after lines 148-155. -/
def cutPoints (line : GoString) (m : MatchMap) : List Nat :=
  sortInts (uniqInt (collectIndexes line m))

/-- The test of line 163. -/
def covers (v : Interval) (left right : Nat) : Bool :=
  decide ((v.1 ≤ left ∧ left ≤ v.2) ∧ (v.1 ≤ right ∧ right ≤ v.2))

/-- The slice `paletteList` after the loop of lines 160-167: one copy of the
slot index for every interval of the slot that passes the test. -/
def paletteList (m : MatchMap) (left right : Nat) : List Nat :=
  m.flatMap (fun e => (e.2.filter (fun v => covers v left right)).map (fun _ => e.1))

/-- The library function `funk.MaxInt` as `processLine` uses it,
`funk.MaxInt(paletteList).(int)`: the greatest element, and a panic on an
empty slice. -/
def maxInt : List Nat → Except Fault Nat
  | [] => .error .emptyMax
  | x :: xs => .ok (xs.foldl (fun mx item => if item > mx then item else mx) x)

/-- The style chosen at lines 174-184. -/
def styleOf {Rx : Type} (palette : Palette Rx) : HexStyle :=
  if palette.Bg = "" ∧ palette.Fg = "" then ⟨"#ff3333", none⟩
  else if palette.Bg = "" ∧ palette.Fg ≠ "" then ⟨palette.Fg, none⟩
  else if palette.Bg ≠ "" ∧ palette.Fg = "" then ⟨"#000000", some palette.Bg⟩
  else ⟨palette.Fg, some palette.Bg⟩

/-- One iteration of the loop of lines 158-186: the text written to the builder
for the span `(left, right)`, the map being visited as `m`. -/
def renderSpan {Rx : Type} (env : Env Rx) (Cfg : Config Rx) (line : GoString) (m : MatchMap)
    (left right : Nat) : Except Fault GoString :=
  let pl := paletteList m left right
  if pl.length = 0 then slice line left right
  else do
    let k ← maxInt pl
    let palette ← index Cfg.Palette k
    let c := styleOf palette
    let text ← slice line left right
    pure (env.render c text)

/-- The loop of lines 158-186 from iteration `i` on, `b` being the builder and
the list the part of `indexes` from position `i` on. -/
def spanLoop {Rx : Type} (env : Env Rx) (Cfg : Config Rx) (line : GoString) (m : MatchMap)
    (i : Nat) (b : GoString) : List Nat → Except Fault GoString
  | left :: right :: rest => do
    let s ← renderSpan env Cfg line ((env.rangeSpan i).visit m) left right
    spanLoop env Cfg line m (i + 1) (b ++ s) (right :: rest)
  | _ => .ok b

/-- The function `processLine`, `Cfg` being the (non-nil) global configuration. -/
def processLine {Rx : Type} (env : Env Rx) (Cfg : Config Rx) (line : GoString) :
    Except Fault GoString :=
  if line = [] then .ok line
  else
    let m := palette2indexes env.findAll Cfg line
    let indexes := cutPoints line (env.rangeCut.visit m)
    spanLoop env Cfg line m 0 [] indexes

/-! ### The spans of a line -/

/-- A span: the two cut points and the slot that wins it, if any. -/
structure Span where
  left : Nat
  right : Nat
  winner : Option Nat
  deriving DecidableEq, Repr

/-- The slot whose colours the loop body uses for `(left, right)`: none when
`paletteList` is empty, else its maximum. -/
def winner (m : MatchMap) (left right : Nat) : Option Nat :=
  let pl := paletteList m left right
  if pl.length = 0 then none
  else match maxInt pl with
    | .ok k => some k
    | .error _ => none

/-- The spans visited by the loop of lines 158-186 from iteration `i` on. -/
def spansFrom (visit : Nat → MatchMap) (i : Nat) : List Nat → List Span
  | left :: right :: rest =>
    ⟨left, right, winner (visit i) left right⟩ :: spansFrom visit (i + 1) (right :: rest)
  | _ => []

/-- The spans `processLine` emits for a line, in order. -/
def spans {Rx : Type} (env : Env Rx) (Cfg : Config Rx) (line : GoString) : List Span :=
  if line = [] then []
  else
    let m := palette2indexes env.findAll Cfg line
    spansFrom (fun i => (env.rangeSpan i).visit m) 0 (cutPoints line (env.rangeCut.visit m))

/-- The raw text `line[left:right]` of a span. -/
def rawText (line : GoString) (sp : Span) : GoString :=
  (line.drop sp.left).take (sp.right - sp.left)

/-- The text written for a span: its raw text, wrapped in the style of the
winning slot when there is one. -/
def piece {Rx : Type} (env : Env Rx) (Cfg : Config Rx) (line : GoString) (sp : Span) : GoString :=
  match sp.winner.bind (fun k => Cfg.Palette[k]?) with
  | none => rawText line sp
  | some palette => env.render (styleOf palette) (rawText line sp)

/-- The regular expression engine returns offsets inside the line:
`0 ≤ s ≤ e ≤ len(line)` for every match interval `[s, e]`. -/
def InBounds {Rx : Type} (findAll : Rx → GoString → List Interval) (Cfg : Config Rx)
    (line : GoString) : Prop :=
  ∀ p ∈ Cfg.Palette, ∀ r ∈ p.RegexpList, ∀ v ∈ findAll r line, v.1 ≤ v.2 ∧ v.2 ≤ line.length

/-- Slot `k` owns the interval `v` in the map `m`. -/
def Owns (m : MatchMap) (k : Nat) (v : Interval) : Prop :=
  ∃ ivs, (k, ivs) ∈ m ∧ v ∈ ivs

/-- The slots that own an interval `[v0, v1]` containing the whole span:
`v0 ≤ left` and `right ≤ v1`. -/
def Covering (m : MatchMap) (left right : Nat) : Set Nat :=
  {k | ∃ v, Owns m k v ∧ v.1 ≤ left ∧ right ≤ v.2}

/-- The slots that own an interval `[v0, v1]` with `v0 ≤ p < v1`. -/
def CoveringAt (m : MatchMap) (p : Nat) : Set Nat :=
  {k | ∃ v, Owns m k v ∧ v.1 ≤ p ∧ p < v.2}

/-- The winner `w` is the one determined by the set `S` of candidate slots:
none when `S` is empty, else the greatest element of `S`. -/
def WinnerOf (S : Set Nat) (w : Option Nat) : Prop :=
  (w = none ∧ ∀ k, k ∉ S) ∨ ∃ k, w = some k ∧ IsGreatest S k

/-- The slice `indexes` of `processLine` after lines 148-155. -/
def indexes {Rx : Type} (env : Env Rx) (Cfg : Config Rx) (line : GoString) : List Nat :=
  cutPoints line (env.rangeCut.visit (palette2indexes env.findAll Cfg line))

/-- A renderer that adds no colour wrapping. -/
def plainRender : HexStyle → GoString → GoString := fun _ text => text

/-! ### Test data -/

/-- A stand-in expression for the scenarios: it is the list of matches it
reports (on every line). -/
abbrev TableRx := List Interval

/-- The engine of the scenarios, with a renderer that brackets the span text
and maps visited as listed. -/
def tableEnv : Env TableRx where
  findAll := fun r _ => r
  render := fun _ text => 91 :: text ++ [93]
  rangeCut := RangeOrder.asListed
  rangeSpan := fun _ => RangeOrder.backwards

/-- The bytes of `ERROR: failed`. -/
def errorLine : GoString := [69, 82, 82, 79, 82, 58, 32, 102, 97, 105, 108, 101, 100]

/-- One slot, background red, whose pattern `ERROR` matches `[0,5]`. -/
def errorCfg : Config TableRx := ⟨[⟨"", "#ff0000", ["ERROR"], [[(0, 5)]]⟩], []⟩

/-- The bytes of `abcabc`. -/
def abcLine : GoString := [97, 98, 99, 97, 98, 99]

/-- Slot 0 with pattern `abc` (matches `[0,3]`, `[3,6]`), slot 1 with pattern
`bca?` (matches `[1,4]`, `[4,6]`). -/
def abcCfg : Config TableRx :=
  ⟨[⟨"", "#089400", ["abc"], [[(0, 3), (3, 6)]]⟩, ⟨"", "#1b96f3", ["bca?"], [[(1, 4), (4, 6)]]⟩], []⟩

/-- The bytes of `héllo`, the second character taking two bytes. -/
def helloLine : GoString := [104, 195, 169, 108, 108, 111]

/-- One slot without colours whose pattern `é` matches the bytes `[1,3]`. -/
def helloCfg : Config TableRx := ⟨[⟨"", "", ["é"], [[(1, 3)]]⟩], []⟩

/-- Minimality as the specification words it: no two adjacent spans have the
same winner. -/
def Minimal (sps : List Span) : Prop :=
  sps.Chain' (fun s t => s.winner ≠ t.winner)

/-- The bytes of `ab`. -/
def azLine : GoString := [97, 98]

/-- One slot whose pattern `[a-z]` matches `[0,1]` and `[1,2]`. -/
def azCfg : Config TableRx := ⟨[⟨"", "#089400", ["[a-z]"], [[(0, 1), (1, 2)]]⟩], []⟩

/-- One slot whose pattern `x*` matches the empty string at the offsets 0, 1
and 2 of a two-byte line. -/
def zeroCfg : Config TableRx :=
  ⟨[⟨"", "#089400", ["x*"], [[(0, 0), (1, 1), (2, 2)]]⟩], []⟩

/-- The bytes of `plain text`. -/
def plainLine : GoString := [112, 108, 97, 105, 110, 32, 116, 101, 120, 116]

/-- Two slots whose patterns match nothing, and a slot without pattern. -/
def quietCfg : Config TableRx :=
  ⟨[⟨"", "#089400", ["ERROR"], [[]]⟩, ⟨"#ffffff", "", ["WARN", "INFO"], [[], []]⟩,
    ⟨"", "", [], []⟩], []⟩

/-! ## NewConfig -/

/-- A Go `error` value: nil, or an error with its message. -/
abbrev GoError := Option String

/-- The result of `os.Stat`: an error, or the file information, of which the
code reads `IsDir()`. -/
inductive StatResult where
  | failed (msg : String)
  | found (isDir : Bool)
  deriving DecidableEq, Repr

/-- What `NewConfig` takes from outside the repository. -/
structure Sys (Rx : Type) where
  /-- `os.Stat(path)` -/
  stat : String → StatResult
  /-- `os.Open(path)` and the YAML decoding of the file into the empty
  configuration: the error message, or the decoded configuration -/
  decode : String → Except String (Config Rx)
  /-- `regexp.Compile(r)`: the error message, or the compiled expression -/
  compile : String → Except String Rx

/-- The library function `errors.WithStack`: nil for nil, else an error with
the same message. -/
def withStack (err : GoError) : GoError := err

/-- The message of `errors.Wrapf(err, "WROING REGEXP '%s'", r)`. -/
def wrapf (err : String) (r : String) : String :=
  "WROING REGEXP '" ++ r ++ "': " ++ err

/-- The method `validateConfigPath` (lines 115-124). -/
def validateConfigPath {Rx : Type} (sys : Sys Rx) (path : String) : GoError :=
  match sys.stat path with
  | .failed msg => withStack (some msg)
  | .found isDir =>
    let err : GoError := none
    if isDir then withStack err else none

/-- The method `fromFile` (lines 70-81): the configuration afterwards and the
error returned. -/
def fromFile {Rx : Type} (sys : Sys Rx) (c : Config Rx) (configPath : String) :
    Config Rx × GoError :=
  match sys.decode configPath with
  | .error msg => (c, withStack (some msg))
  | .ok decoded => (decoded, none)

/-- The colour list of `setDefaultPaletteColors`. -/
def defaultColors : List String :=
  ["#089400", "#1b96f3", "#ef0195", "#fcdf87", "#f68741", "#8CCBEA", "#A4E57E", "#FFDB72",
   "#ad4c35", "#FF7272", "#FFB3FF", "#9999FF", "#4C2A85", "#6B7FD7", "#BCEDF6", "#DDFBD2",
   "#D664BE", "#DF99F0", "#B191FF", "#F4BFDB", "#FFE9F3", "#87BAAB"]

/-- The method `setDefaultPaletteColors` (lines 83-113). -/
def setDefaultPaletteColors {Rx : Type} (c : Config Rx) : Config Rx :=
  { c with Palette := c.Palette ++ defaultColors.map (fun v => ⟨"", v, [], []⟩) }

/-- Lines 36-41 of `NewConfig`: the configuration after the optional load and
the error of `fromFile`. -/
def loadConfig {Rx : Type} (sys : Sys Rx) (configPath : String) : Config Rx × GoError :=
  let c : Config Rx := ⟨[], []⟩
  match validateConfigPath sys configPath with
  | none => fromFile sys c configPath
  | some _ => (c, none)

/-- Lines 43-45 of `NewConfig`. -/
def ensurePalette {Rx : Type} (c : Config Rx) : Config Rx :=
  if c.Palette.length = 0 then setDefaultPaletteColors c else c

/-- The statement of lines 49 and 57:
`c.Palette[pIndex].RegexpStringList = append(c.Palette[pIndex].RegexpStringList, ms...)`. -/
def appendPatterns {Rx : Type} (ps : List (Palette Rx)) (pIndex : Nat) (ms : List String) :
    Except Fault (List (Palette Rx)) :=
  match ps[pIndex]? with
  | none => .error .indexRange
  | some p => .ok (ps.set pIndex { p with RegexpStringList := p.RegexpStringList ++ ms })

/-- The cursor step of lines 50-53 and 58-61:
`pIndex++; if pIndex > len(c.Palette)-1 { pIndex = 0 }`. -/
def nextIndex (len : Nat) (pIndex : Nat) : Nat :=
  if ((pIndex + 1 : Nat) : Int) > (len : Int) - 1 then 0 else pIndex + 1

/-- The loop of lines 48-54: the palette and the cursor afterwards. -/
def distributeRegexps {Rx : Type} (ps : List (Palette Rx)) (pIndex : Nat) :
    List String → Except Fault (List (Palette Rx) × Nat)
  | [] => .ok (ps, pIndex)
  | m :: rest =>
    match appendPatterns ps pIndex [m] with
    | .error f => .error f
    | .ok ps' => distributeRegexps ps' (nextIndex ps'.length pIndex) rest

/-- The loop of lines 56-62: the palette and the cursor afterwards. -/
def distributeMatch {Rx : Type} (ps : List (Palette Rx)) (pIndex : Nat) :
    List MatchGroup → Except Fault (List (Palette Rx) × Nat)
  | [] => .ok (ps, pIndex)
  | m :: rest =>
    match appendPatterns ps pIndex m.RegexpStringList with
    | .error f => .error f
    | .ok ps' => distributeMatch ps' (nextIndex ps'.length pIndex) rest

/-- Lines 47-62 of `NewConfig`: both loops, sharing the cursor `pIndex`. -/
def distribute {Rx : Type} (ps : List (Palette Rx)) (regexpSlice : List String)
    (groups : List MatchGroup) : Except Fault (List (Palette Rx)) :=
  match distributeRegexps ps 0 regexpSlice with
  | .error f => .error f
  | .ok (ps', pIndex) =>
    match distributeMatch ps' pIndex groups with
    | .error f => .error f
    | .ok (ps'', _) => .ok ps''

/-- The inner loop of `compileRegexps` (lines 128-133) for one slot: the
compiled list, or the wrapped error of the first pattern that fails. -/
def compileList {Rx : Type} (compile : String → Except String Rx) :
    List String → Except String (List Rx)
  | [] => .ok []
  | r :: rest =>
    match compile r with
    | .error err => .error (wrapf err r)
    | .ok x =>
      match compileList compile rest with
      | .error msg => .error msg
      | .ok xs => .ok (x :: xs)

/-- The method `compileRegexps` (lines 126-136): the palette with every
`RegexpList` filled, or the error returned. -/
def compileRegexps {Rx : Type} (compile : String → Except String Rx) :
    List (Palette Rx) → Except String (List (Palette Rx))
  | [] => .ok []
  | p :: rest =>
    match compileList compile p.RegexpStringList with
    | .error msg => .error msg
    | .ok xs =>
      match compileRegexps compile rest with
      | .error msg => .error msg
      | .ok ps => .ok ({ p with RegexpList := xs } :: ps)

/-- The function `NewConfig` (lines 35-68): a panic, or the pair returned, the
configuration (nil when none) and the error (nil when none). -/
def NewConfig {Rx : Type} (sys : Sys Rx) (configPath : String) (regexpSlice : List String) :
    Except Fault (Option (Config Rx) × GoError) :=
  match loadConfig sys configPath with
  | (_, some err) => .ok (none, withStack (some err))
  | (c1, none) =>
    let c := ensurePalette c1
    match distribute c.Palette regexpSlice c.Match with
    | .error f => .error f
    | .ok ps =>
      match compileRegexps sys.compile ps with
      | .error msg => .ok (none, withStack (some msg))
      | .ok ps' => .ok (some { c with Palette := ps' }, none)

/-! ### The distribution as the specification words it -/

/-- The extra patterns that go to slot `k` of `n` slots, pattern `i` being
numbered `start + i`: those whose number is `k` modulo `n`, in the order
supplied. -/
def extraShare (n k start : Nat) (extras : List String) : List String :=
  ((extras.enumFrom start).filter (fun e => e.1 % n = k)).map Prod.snd

/-- The patterns of the match groups that go to slot `k` of `n` slots, group
`j` being numbered `start + j`: the groups whose number is `k` modulo `n`, each
as one block, in the order supplied. -/
def groupShare (n k start : Nat) (groups : List MatchGroup) : List String :=
  (((groups.enumFrom start).filter (fun e => e.1 % n = k)).map
    (fun e => e.2.RegexpStringList)).flatten

/-- The pattern strings of all slots, slot after slot. -/
def allPatterns {Rx : Type} (ps : List (Palette Rx)) : List String :=
  ps.flatMap (fun p => p.RegexpStringList)

/-- The pattern does not compile. -/
def fails {Rx : Type} (compile : String → Except String Rx) (r : String) : Bool :=
  match compile r with
  | .error _ => true
  | .ok _ => false

/-- The loops of lines 48-54 and 56-62 in one form: append block after block,
one slot per block. -/
def distributeBlocks {Rx : Type} (ps : List (Palette Rx)) (pIndex : Nat) :
    List (List String) → Except Fault (List (Palette Rx) × Nat)
  | [] => .ok (ps, pIndex)
  | ms :: rest =>
    match appendPatterns ps pIndex ms with
    | .error f => .error f
    | .ok ps' => distributeBlocks ps' (nextIndex ps'.length pIndex) rest

/-- The blocks that go to slot `k` of `n` slots, block `j` being numbered
`start + j`. -/
def blockShare (n k start : Nat) (blocks : List (List String)) : List String :=
  (((blocks.enumFrom start).filter (fun e => e.1 % n = k)).map Prod.snd).flatten

/-- The palette with `share k` appended to the pattern strings of slot `k`. -/
def addShares {Rx : Type} (ps : List (Palette Rx)) (share : Nat → List String) :
    List (Palette Rx) :=
  ps.enum.map (fun e => { e.2 with RegexpStringList := e.2.RegexpStringList ++ share e.1 })

/-- Slot `p'` is slot `p` after `compileRegexps`: the colours and the pattern
strings are kept, and the compiled list holds the compiled form of every
pattern string, in the same order. -/
def SlotCompiled {Rx : Type} (compile : String → Except String Rx) (p p' : Palette Rx) : Prop :=
  p'.Fg = p.Fg ∧ p'.Bg = p.Bg ∧ p'.RegexpStringList = p.RegexpStringList ∧
    List.Forall₂ (fun r x => compile r = .ok x) p.RegexpStringList p'.RegexpList

/-! ### Test data for NewConfig -/

/-- The stand-in compiler of the scenarios: a pattern compiles to itself,
except the patterns `(` and `[`, which do not compile. -/
def tableCompile (r : String) : Except String String :=
  if r = "(" then .error "missing closing )"
  else if r = "[" then .error "missing closing ]"
  else .ok r

/-- A two-slot palette, the first slot with one pattern of its own. -/
def twoSlots : List (Palette String) :=
  [⟨"", "#111111", ["own"], []⟩, ⟨"#222222", "", [], []⟩]

/-- Two match groups, the first with two patterns, the second empty, and a third. -/
def threeGroups : List MatchGroup := [⟨["g0a", "g0b"]⟩, ⟨[]⟩, ⟨["g2"]⟩]

/-- A file system in which `cfg.yml` is a file that decodes to `twoSlots` and
`threeGroups`, `bad.yml` is a file that does not decode, and nothing else
exists. -/
def tableSys : Sys String where
  stat := fun path =>
    if path = "cfg.yml" ∨ path = "bad.yml" then .found false
    else .failed "no such file or directory"
  decode := fun path =>
    if path = "cfg.yml" then .ok ⟨twoSlots, threeGroups⟩
    else .error "yaml: unmarshal errors"
  compile := tableCompile

/-- A file system in which `confdir` exists and is a directory: opening it
succeeds and reading it fails, so that the decoding returns an error. -/
def dirSys : Sys String where
  stat := fun path =>
    if path = "confdir" then .found true else .failed "no such file or directory"
  decode := fun _ => .error "yaml: input error: read confdir: is a directory"
  compile := tableCompile

/-- The palette `setDefaultPaletteColors` builds from nothing. -/
def defaultPalette (Rx : Type) : List (Palette Rx) :=
  defaultColors.map (fun v => ⟨"", v, [], []⟩)

/-! ## The read loop of the action -/

/-- The error of a read: `io.EOF`, or another error with its message. -/
inductive ReadError where
  | eof
  | other (msg : String)
  deriving DecidableEq, Repr

/-- Standard input as the reader sees it: the bytes that arrive, and the error
that ends the stream after them. -/
structure Stdin where
  data : GoString
  last : ReadError

/-- The bytes up to and including the first newline (byte 10), and the bytes
after it; none when there is no newline. -/
def splitLine : GoString → Option (GoString × GoString)
  | [] => none
  | b :: rest =>
    if b = 10 then some ([b], rest)
    else
      match splitLine rest with
      | none => none
      | some (line, after) => some (b :: line, after)

/-- The library call `reader.ReadString('\n')`: the string read, the error
(nil when the newline was found, else the error that ends the stream, with the
bytes read before it), and the input left. -/
def readString (input : Stdin) : GoString × Option ReadError × Stdin :=
  match splitLine input.data with
  | some (line, after) => (line, none, { input with data := after })
  | none => (input.data, some input.last, { input with data := [] })

/-- The expression `line[:len(line)-1]` of line 223. -/
def dropLast (line : GoString) : Except Fault GoString :=
  if line.length = 0 then .error .sliceBounds else slice line 0 (line.length - 1)

/-- Lines 217-228 of the action, with a bound on the number of reads: what was
written to standard output and the error returned, or a panic; none when the
bound is reached. `out` is what has been written so far. -/
def readLoop {Rx : Type} (env : Env Rx) (Cfg : Config Rx) :
    Nat → Stdin → GoString → Option (Except Fault (GoString × GoError))
  | 0, _, _ => none
  | fuel + 1, input, out =>
    match readString input with
    | (_, some err, _) =>
      match err with
      | .eof => some (.ok (out, none))
      | .other msg => some (.ok (out, withStack (some msg)))
    | (line, none, input') =>
      match dropLast line with
      | .error f => some (.error f)
      | .ok record =>
        match processLine env Cfg record with
        | .error f => some (.error f)
        | .ok s => readLoop env Cfg fuel input' (out ++ s ++ [10])

/-- Lines 217-228 of the action: every read but the last takes at least one
byte, so one more read than there are bytes is enough. -/
def readAll {Rx : Type} (env : Env Rx) (Cfg : Config Rx) (input : Stdin) :
    Option (Except Fault (GoString × GoError)) :=
  readLoop env Cfg (input.data.length + 1) input []

/-- The input made of the records, each followed by a newline, and the tail. -/
def recordsInput (records : List GoString) (tail : GoString) : GoString :=
  (records.map (fun r => r ++ [10])).flatten ++ tail

/-- The bytes of `ab`, newline, `ab`, newline, `x`. -/
def twoRecords : GoString := [97, 98, 10, 97, 98, 10, 120]

/-! ## Lemmas on the library functions -/

theorem mem_uniqIntFrom (x : Nat) (l seen : List Nat) :
    x ∈ uniqIntFrom seen l ↔ x ∈ l ∧ x ∉ seen := by
  induction l generalizing seen with
  | nil => simp [uniqIntFrom]
  | cons v rest ih =>
    unfold uniqIntFrom
    by_cases hv : v ∈ seen
    · simp only [hv, if_true, ih, List.mem_cons]
      constructor
      · rintro ⟨h1, h2⟩
        exact ⟨Or.inr h1, h2⟩
      · rintro ⟨h1 | h1, h2⟩
        · subst h1
          exact absurd hv h2
        · exact ⟨h1, h2⟩
    · simp only [hv, if_false, List.mem_cons, ih, not_or]
      constructor
      · rintro (h | ⟨h1, h2, h3⟩)
        · subst h
          exact ⟨Or.inl rfl, hv⟩
        · exact ⟨Or.inr h1, h3⟩
      · rintro ⟨h1 | h1, h2⟩
        · exact Or.inl h1
        · by_cases hx : x = v
          · exact Or.inl hx
          · exact Or.inr ⟨h1, hx, h2⟩

theorem nodup_uniqIntFrom (l seen : List Nat) : (uniqIntFrom seen l).Nodup := by
  induction l generalizing seen with
  | nil => simp [uniqIntFrom]
  | cons v rest ih =>
    unfold uniqIntFrom
    by_cases hv : v ∈ seen
    · simp only [hv, if_true]
      exact ih seen
    · simp only [hv, if_false, List.nodup_cons]
      refine ⟨?_, ih _⟩
      intro h
      have h2 := ((mem_uniqIntFrom v rest (v :: seen)).1 h).2
      exact h2 (List.mem_cons_self v seen)

theorem mem_uniqInt (x : Nat) (l : List Nat) : x ∈ uniqInt l ↔ x ∈ l := by
  simp [uniqInt, mem_uniqIntFrom]

theorem nodup_uniqInt (l : List Nat) : (uniqInt l).Nodup := nodup_uniqIntFrom l []

theorem mem_sortInts (x : Nat) (l : List Nat) : x ∈ sortInts l ↔ x ∈ l :=
  (List.perm_insertionSort (· ≤ ·) l).mem_iff

theorem mem_cutPoints (x : Nat) (line : GoString) (m : MatchMap) :
    x ∈ cutPoints line m ↔ x ∈ collectIndexes line m := by
  simp [cutPoints, mem_sortInts, mem_uniqInt]

theorem sorted_cutPoints (line : GoString) (m : MatchMap) :
    (cutPoints line m).Sorted (· < ·) := by
  unfold cutPoints sortInts
  apply List.Sorted.lt_of_le
  · exact List.sorted_insertionSort (· ≤ ·) _
  · exact (List.perm_insertionSort (· ≤ ·) _).nodup_iff.2 (nodup_uniqInt _)

theorem mem_collectIndexes (x : Nat) (line : GoString) (m : MatchMap) :
    x ∈ collectIndexes line m ↔
      x = 0 ∨ x = line.length ∨ ∃ k v, Owns m k v ∧ (x = v.1 ∨ x = v.2) := by
  unfold collectIndexes Owns
  simp only [List.mem_append, List.mem_cons, List.mem_flatMap, List.mem_singleton,
    List.not_mem_nil, or_false]
  constructor
  · rintro ((h | h) | ⟨⟨k, ivs⟩, hm, v, hv, h⟩)
    · exact Or.inl h
    · exact Or.inr (Or.inl h)
    · exact Or.inr (Or.inr ⟨k, v, ⟨ivs, hm, hv⟩, h⟩)
  · rintro (h | h | ⟨k, v, ⟨ivs, hm, hv⟩, h⟩)
    · exact Or.inl (Or.inl h)
    · exact Or.inl (Or.inr h)
    · exact Or.inr ⟨(k, ivs), hm, v, hv, h⟩

theorem owns_perm {m m' : MatchMap} (h : m'.Perm m) (k : Nat) (v : Interval) :
    Owns m' k v ↔ Owns m k v := by
  unfold Owns
  constructor
  · rintro ⟨ivs, h1, h2⟩
    exact ⟨ivs, h.mem_iff.1 h1, h2⟩
  · rintro ⟨ivs, h1, h2⟩
    exact ⟨ivs, h.mem_iff.2 h1, h2⟩

/-- Two strictly increasing lists with the same members are equal. -/
theorem sorted_lt_ext {l l' : List Nat} (h : l.Sorted (· < ·)) (h' : l'.Sorted (· < ·))
    (hm : ∀ x, x ∈ l ↔ x ∈ l') : l = l' := by
  apply List.eq_of_perm_of_sorted ?_ h h'
  exact (List.perm_ext_iff_of_nodup h.nodup h'.nodup).2 hm

/-- The cut points do not depend on the order in which the map is visited. -/
theorem cutPoints_perm {m m' : MatchMap} (h : m'.Perm m) (line : GoString) :
    cutPoints line m' = cutPoints line m := by
  apply sorted_lt_ext (sorted_cutPoints _ _) (sorted_cutPoints _ _)
  intro x
  simp only [mem_cutPoints, mem_collectIndexes, owns_perm h]

theorem mem_paletteList (k : Nat) (m : MatchMap) (left right : Nat) :
    k ∈ paletteList m left right ↔ ∃ v, Owns m k v ∧ covers v left right = true := by
  unfold paletteList Owns
  simp only [List.mem_flatMap, List.mem_map, List.mem_filter]
  constructor
  · rintro ⟨⟨k', ivs⟩, hm, v, ⟨hv, hc⟩, rfl⟩
    exact ⟨v, ⟨ivs, hm, hv⟩, hc⟩
  · rintro ⟨v, ⟨ivs, hm, hv⟩, hc⟩
    exact ⟨(k, ivs), hm, v, ⟨hv, hc⟩, rfl⟩

theorem paletteList_perm_mem {m m' : MatchMap} (h : m'.Perm m) (k left right : Nat) :
    k ∈ paletteList m' left right ↔ k ∈ paletteList m left right := by
  simp only [mem_paletteList, owns_perm h]

theorem foldl_max_spec (xs : List Nat) (x : Nat) :
    let r := xs.foldl (fun mx item => if item > mx then item else mx) x
    r ∈ x :: xs ∧ ∀ y ∈ x :: xs, y ≤ r := by
  induction xs generalizing x with
  | nil => simp
  | cons a t ih =>
    simp only [List.foldl_cons]
    by_cases ha : a > x
    · simp only [ha, if_true]
      obtain ⟨h1, h2⟩ := ih a
      refine ⟨List.mem_cons_of_mem _ h1, ?_⟩
      intro y hy
      rcases List.mem_cons.1 hy with rfl | hy
      · exact le_trans (le_of_lt ha) (h2 a (List.mem_cons_self _ _))
      · exact h2 y hy
    · simp only [ha, if_false]
      obtain ⟨h1, h2⟩ := ih x
      refine ⟨?_, ?_⟩
      · rcases List.mem_cons.1 h1 with h | h
        · rw [h]; exact List.mem_cons_self _ _
        · exact List.mem_cons_of_mem _ (List.mem_cons_of_mem _ h)
      · intro y hy
        rcases List.mem_cons.1 hy with rfl | hy
        · exact h2 _ (List.mem_cons_self _ _)
        · rcases List.mem_cons.1 hy with rfl | hy
          · exact le_trans (not_lt.1 ha) (h2 x (List.mem_cons_self _ _))
          · exact h2 y (List.mem_cons_of_mem _ hy)

/-- On a non-empty slice `funk.MaxInt` returns the greatest element. -/
theorem maxInt_spec (pl : List Nat) (h : pl ≠ []) :
    ∃ k, maxInt pl = .ok k ∧ k ∈ pl ∧ ∀ y ∈ pl, y ≤ k := by
  cases pl with
  | nil => exact absurd rfl h
  | cons x xs => exact ⟨_, rfl, foldl_max_spec xs x⟩

/-! ## Lemmas on the map and the cut points -/

theorem mem_palette2indexes {Rx : Type} (findAll : Rx → GoString → List Interval)
    (Cfg : Config Rx) (line : GoString) (k : Nat) (ivs : List Interval) :
    (k, ivs) ∈ palette2indexes findAll Cfg line ↔
      ∃ p, Cfg.Palette[k]? = some p ∧ p.RegexpList ≠ [] ∧
        ivs = slotMatches findAll line p.RegexpList := by
  unfold palette2indexes
  simp only [List.mem_map, List.mem_filter, Prod.mk.injEq]
  constructor
  · rintro ⟨⟨i, p⟩, ⟨he, hne⟩, rfl, rfl⟩
    refine ⟨p, List.mk_mem_enum_iff_getElem?.1 he, ?_, rfl⟩
    intro h
    simp [h] at hne
  · rintro ⟨p, hp, hne, rfl⟩
    refine ⟨(k, p), ⟨List.mk_mem_enum_iff_getElem?.2 hp, ?_⟩, rfl, rfl⟩
    cases hr : p.RegexpList with
    | nil => exact absurd hr hne
    | cons a t => simp

theorem owns_palette2indexes {Rx : Type} (findAll : Rx → GoString → List Interval)
    (Cfg : Config Rx) (line : GoString) (k : Nat) (v : Interval) :
    Owns (palette2indexes findAll Cfg line) k v ↔
      ∃ p, Cfg.Palette[k]? = some p ∧ ∃ r ∈ p.RegexpList, v ∈ findAll r line := by
  unfold Owns
  constructor
  · rintro ⟨ivs, hm, hv⟩
    obtain ⟨p, hp, _, rfl⟩ := (mem_palette2indexes findAll Cfg line k ivs).1 hm
    simp only [slotMatches, List.mem_flatMap] at hv
    exact ⟨p, hp, hv⟩
  · rintro ⟨p, hp, r, hr, hv⟩
    refine ⟨slotMatches findAll line p.RegexpList, ?_, ?_⟩
    · exact (mem_palette2indexes findAll Cfg line k _).2
        ⟨p, hp, List.ne_nil_of_mem hr, rfl⟩
    · simp only [slotMatches, List.mem_flatMap]
      exact ⟨r, hr, hv⟩

theorem owns_inBounds {Rx : Type} {findAll : Rx → GoString → List Interval}
    {Cfg : Config Rx} {line : GoString} (hb : InBounds findAll Cfg line) (k : Nat)
    (v : Interval) (h : Owns (palette2indexes findAll Cfg line) k v) :
    v.1 ≤ v.2 ∧ v.2 ≤ line.length := by
  obtain ⟨p, hp, r, hr, hv⟩ := (owns_palette2indexes findAll Cfg line k v).1 h
  exact hb p (List.getElem?_mem hp) r hr v hv

theorem owns_key_lt {Rx : Type} {findAll : Rx → GoString → List Interval}
    {Cfg : Config Rx} {line : GoString} {k : Nat} {v : Interval}
    (h : Owns (palette2indexes findAll Cfg line) k v) : k < Cfg.Palette.length := by
  obtain ⟨p, hp, _⟩ := (owns_palette2indexes findAll Cfg line k v).1 h
  exact (List.getElem?_eq_some.1 hp).1

theorem cutPoints_le (line : GoString) (m : MatchMap)
    (hb : ∀ k v, Owns m k v → v.1 ≤ v.2 ∧ v.2 ≤ line.length) :
    ∀ x ∈ cutPoints line m, x ≤ line.length := by
  intro x hx
  rcases (mem_collectIndexes x line m).1 ((mem_cutPoints x line m).1 hx) with
    h | h | ⟨k, v, ho, h | h⟩
  · omega
  · omega
  · have := hb k v ho
    omega
  · have := hb k v ho
    omega

theorem zero_mem_cutPoints (line : GoString) (m : MatchMap) : 0 ∈ cutPoints line m :=
  (mem_cutPoints 0 line m).2 ((mem_collectIndexes 0 line m).2 (Or.inl rfl))

theorem length_mem_cutPoints (line : GoString) (m : MatchMap) :
    line.length ∈ cutPoints line m :=
  (mem_cutPoints _ line m).2 ((mem_collectIndexes _ line m).2 (Or.inr (Or.inl rfl)))

theorem sorted_head_zero {l : List Nat} (h : l.Sorted (· < ·)) (h0 : 0 ∈ l) :
    l.head? = some 0 := by
  cases l with
  | nil => simp at h0
  | cons a t =>
    simp only [List.head?_cons, Option.some.injEq]
    rcases List.mem_cons.1 h0 with h1 | h1
    · exact h1.symm
    · have := List.rel_of_sorted_cons h 0 h1
      omega

theorem sorted_getLast {l : List Nat} (h : l.Sorted (· < ·)) {n : Nat} (hn : n ∈ l)
    (hle : ∀ x ∈ l, x ≤ n) : l.getLast? = some n := by
  induction l with
  | nil => simp at hn
  | cons a t ih =>
    cases t with
    | nil =>
      simp only [List.mem_singleton] at hn
      simp [hn]
    | cons b t' =>
      rw [List.getLast?_cons_cons]
      apply ih h.of_cons
      · rcases List.mem_cons.1 hn with h1 | h1
        · have hb := hle b (by simp)
          have hab := List.rel_of_sorted_cons h b (by simp)
          omega
        · exact h1
      · intro x hx
        exact hle x (List.mem_cons_of_mem _ hx)

/-! ## Lemmas on the span loop -/

theorem spansFrom_length (visit : Nat → MatchMap) (i : Nat) (l : List Nat) :
    (spansFrom visit i l).length = l.length - 1 := by
  induction l generalizing i with
  | nil => simp [spansFrom]
  | cons a t ih =>
    cases t with
    | nil => simp [spansFrom]
    | cons b t' =>
      simp only [spansFrom, List.length_cons, ih (i + 1)]
      omega

theorem spansFrom_getElem (visit : Nat → MatchMap) (i : Nat) (l : List Nat) (j : Nat)
    (hj : j + 1 < l.length) :
    (spansFrom visit i l)[j]? =
      some ⟨l[j], l[j + 1], winner (visit (i + j)) l[j] l[j + 1]⟩ := by
  induction l generalizing i j with
  | nil => simp at hj
  | cons a t ih =>
    cases t with
    | nil => simp at hj
    | cons b t' =>
      cases j with
      | zero => simp [spansFrom]
      | succ j' =>
        simp only [spansFrom, List.getElem?_cons_succ, List.getElem_cons_succ]
        have hj' : j' + 1 < (b :: t').length := by
          simp only [List.length_cons] at hj ⊢
          omega
        rw [ih (i + 1) j' hj']
        have : i + 1 + j' = i + (j' + 1) := by omega
        rw [this]
        simp

/-- Every span comes from two neighbouring cut points. -/
theorem mem_spansFrom {visit : Nat → MatchMap} {i : Nat} {l : List Nat} {sp : Span}
    (h : sp ∈ spansFrom visit i l) :
    ∃ j, ∃ hj : j + 1 < l.length,
      sp = ⟨l[j], l[j + 1], winner (visit (i + j)) l[j] l[j + 1]⟩ := by
  obtain ⟨j, hj, he⟩ := List.getElem_of_mem h
  have hj' : j + 1 < l.length := by
    rw [spansFrom_length] at hj
    omega
  refine ⟨j, hj', ?_⟩
  have h1 := spansFrom_getElem visit i l j hj'
  rw [List.getElem?_eq_getElem hj] at h1
  rw [← he]
  exact Option.some.inj h1

theorem sorted_getElem_lt {l : List Nat} (h : l.Sorted (· < ·)) {a b : Nat} (hb : b < l.length)
    (hab : a < b) : l[a] < l[b] :=
  List.pairwise_iff_getElem.1 h a b (by omega) hb hab

theorem sorted_getElem_le {l : List Nat} (h : l.Sorted (· < ·)) {a b : Nat} (hb : b < l.length)
    (hab : a ≤ b) : l[a] ≤ l[b] := by
  rcases Nat.eq_or_lt_of_le hab with rfl | hlt
  · exact le_refl _
  · exact le_of_lt (sorted_getElem_lt h hb hlt)

/-- No cut point lies strictly inside a span. -/
theorem sorted_no_between {l : List Nat} (h : l.Sorted (· < ·)) {j : Nat} (hj : j + 1 < l.length)
    {x : Nat} (hx : x ∈ l) : x ≤ l[j] ∨ l[j + 1] ≤ x := by
  obtain ⟨t, ht, rfl⟩ := List.getElem_of_mem hx
  by_cases htj : t ≤ j
  · exact Or.inl (sorted_getElem_le h (by omega) htj)
  · exact Or.inr (sorted_getElem_le h ht (by omega))

theorem take_drop_append (s : GoString) {a b c : Nat} (hab : a ≤ b) (hbc : b ≤ c) :
    (s.drop a).take (b - a) ++ (s.drop b).take (c - b) = (s.drop a).take (c - a) := by
  have h1 : c - a = (b - a) + (c - b) := by omega
  have h2 : s.drop b = (s.drop a).drop (b - a) := by
    rw [List.drop_drop]
    congr 1
    omega
  rw [h1, List.take_add, h2]

/-- The raw texts of the spans over a strictly increasing list of cut points
concatenate to the part of the line between the first and the last of them. -/
theorem flatten_rawText (line : GoString) (visit : Nat → MatchMap) (l : List Nat) (a i : Nat)
    (hs : (a :: l).Sorted (· < ·)) :
    ((spansFrom visit i (a :: l)).map (rawText line)).flatten =
      (line.drop a).take ((a :: l).getLast (List.cons_ne_nil a l) - a) := by
  induction l generalizing a i with
  | nil => simp [spansFrom]
  | cons b t ih =>
    have hab : a < b := List.rel_of_sorted_cons hs b (by simp)
    have hs' : (b :: t).Sorted (· < ·) := hs.of_cons
    have hlast : b ≤ (b :: t).getLast (List.cons_ne_nil b t) := by
      rcases List.mem_cons.1 (List.getLast_mem (List.cons_ne_nil b t)) with h | h
      · omega
      · exact le_of_lt (List.rel_of_sorted_cons hs' _ h)
    simp only [spansFrom, List.map_cons, List.flatten_cons, ih b (i + 1) hs']
    rw [List.getLast_cons (List.cons_ne_nil b t)]
    simp only [rawText]
    exact take_drop_append line (le_of_lt hab) hlast

theorem covers_iff (v : Interval) {left right : Nat} (h : left ≤ right) :
    covers v left right = true ↔ v.1 ≤ left ∧ right ≤ v.2 := by
  unfold covers
  simp only [decide_eq_true_eq]
  omega

/-- The outcome of the winner computation: none when no slot passes the test,
else the greatest slot that passes it. -/
theorem winner_spec (m : MatchMap) (left right : Nat) :
    (winner m left right = none ∧ paletteList m left right = []) ∨
      ∃ k, winner m left right = some k ∧ maxInt (paletteList m left right) = .ok k ∧
        k ∈ paletteList m left right ∧ ∀ y ∈ paletteList m left right, y ≤ k := by
  unfold winner
  by_cases h : paletteList m left right = []
  · left
    simp [h]
  · right
    obtain ⟨k, hk, hmem, hmax⟩ := maxInt_spec _ h
    refine ⟨k, ?_, hk, hmem, hmax⟩
    have hl : (paletteList m left right).length ≠ 0 := by
      simpa [List.length_eq_zero] using h
    simp [hl, hk]

/-- One loop iteration writes the piece of its span. -/
theorem renderSpan_eq {Rx : Type} (env : Env Rx) (Cfg : Config Rx) (line : GoString)
    (m : MatchMap) {left right : Nat} (hlr : left ≤ right) (hr : right ≤ line.length)
    (hk : ∀ k ∈ paletteList m left right, k < Cfg.Palette.length) :
    renderSpan env Cfg line m left right =
      .ok (piece env Cfg line ⟨left, right, winner m left right⟩) := by
  have hsl : slice line left right = .ok ((line.drop left).take (right - left)) := by
    simp [slice, hlr, hr]
  rcases winner_spec m left right with ⟨hw, hp⟩ | ⟨k, hw, hmax, hmem, _⟩
  · simp [renderSpan, piece, hp, hsl, hw, rawText]
  · have hne : (paletteList m left right).length ≠ 0 := by
      intro h0
      rw [List.length_eq_zero] at h0
      rw [h0] at hmem
      simp at hmem
    have hlt := hk k hmem
    have hidx : Cfg.Palette[k]? = some Cfg.Palette[k] := List.getElem?_eq_getElem hlt
    simp only [renderSpan, piece, hne, if_false, hmax, hw, Option.bind, index, hsl,
      rawText, bind, Except.bind, hidx, pure, Except.pure]

/-- The span loop writes the pieces of its spans one after the other. -/
theorem spanLoop_eq {Rx : Type} (env : Env Rx) (Cfg : Config Rx) (line : GoString)
    (m : MatchMap) (l : List Nat) (i : Nat) (b : GoString) (hs : l.Sorted (· < ·))
    (hle : ∀ x ∈ l, x ≤ line.length)
    (hk : ∀ k v, Owns m k v → k < Cfg.Palette.length) :
    spanLoop env Cfg line m i b l =
      .ok (b ++ ((spansFrom (fun j => (env.rangeSpan j).visit m) i l).map
        (piece env Cfg line)).flatten) := by
  induction l generalizing i b with
  | nil => simp [spanLoop, spansFrom]
  | cons a t ih =>
    cases t with
    | nil => simp [spanLoop, spansFrom]
    | cons c t' =>
      have hac : a < c := List.rel_of_sorted_cons hs c (by simp)
      have hr := renderSpan_eq env Cfg line ((env.rangeSpan i).visit m) (le_of_lt hac)
        (hle c (by simp)) (by
          intro k hk'
          obtain ⟨v, ho, _⟩ := (mem_paletteList k _ a c).1 hk'
          exact hk k v ((owns_perm ((env.rangeSpan i).perm m) k v).1 ho))
      simp only [spanLoop, hr, spansFrom, List.map_cons, List.flatten_cons]
      have := ih (i + 1) (b ++ piece env Cfg line ⟨a, c, winner ((env.rangeSpan i).visit m) a c⟩)
        hs.of_cons (fun x hx => hle x (List.mem_cons_of_mem _ hx))
      simp only [List.append_assoc] at this
      exact this

/-! ## Independence of the visiting order -/

theorem winner_perm {m m' : MatchMap} (h : m'.Perm m) (left right : Nat) :
    winner m' left right = winner m left right := by
  rcases winner_spec m' left right with ⟨h1, hp1⟩ | ⟨k1, h1, _, hm1, hx1⟩ <;>
    rcases winner_spec m left right with ⟨h2, hp2⟩ | ⟨k2, h2, _, hm2, hx2⟩
  · rw [h1, h2]
  · have := (paletteList_perm_mem h k2 left right).2 hm2
    rw [hp1] at this
    simp at this
  · have := (paletteList_perm_mem h k1 left right).1 hm1
    rw [hp2] at this
    simp at this
  · have a1 := hx2 k1 ((paletteList_perm_mem h k1 left right).1 hm1)
    have a2 := hx1 k2 ((paletteList_perm_mem h k2 left right).2 hm2)
    rw [h1, h2]
    congr 1
    omega

theorem spansFrom_congr {visit visit' : Nat → MatchMap}
    (h : ∀ j left right, winner (visit j) left right = winner (visit' j) left right)
    (i : Nat) (l : List Nat) : spansFrom visit i l = spansFrom visit' i l := by
  induction l generalizing i with
  | nil => simp [spansFrom]
  | cons a t ih =>
    cases t with
    | nil => simp [spansFrom]
    | cons b t' => simp only [spansFrom, h, ih (i + 1)]

/-- The spans of a line do not depend on the orders in which the map is visited. -/
theorem spans_eq {Rx : Type} (env : Env Rx) (Cfg : Config Rx) (line : GoString)
    (hne : line ≠ []) :
    spans env Cfg line =
      spansFrom (fun _ => palette2indexes env.findAll Cfg line) 0
        (cutPoints line (palette2indexes env.findAll Cfg line)) := by
  unfold spans
  simp only [hne, if_false]
  rw [cutPoints_perm (env.rangeCut.perm _)]
  exact spansFrom_congr (fun j left right => winner_perm ((env.rangeSpan j).perm _) left right) 0 _

theorem winner_winnerOf (m : MatchMap) {left right : Nat} (h : left ≤ right) :
    WinnerOf (Covering m left right) (winner m left right) := by
  have hmem : ∀ k, k ∈ paletteList m left right ↔ k ∈ Covering m left right := by
    intro k
    rw [mem_paletteList]
    simp only [Covering, Set.mem_setOf_eq, covers_iff _ h]
  rcases winner_spec m left right with ⟨hw, hp⟩ | ⟨k, hw, _, hk, hmax⟩
  · left
    refine ⟨hw, fun k hk => ?_⟩
    have := (hmem k).2 hk
    rw [hp] at this
    simp at this
  · right
    exact ⟨k, hw, (hmem k).1 hk, fun y hy => hmax y ((hmem y).2 hy)⟩

/-- The winner determined by a set of candidates is unique. -/
theorem winnerOf_unique {S : Set Nat} {w w' : Option Nat} (h : WinnerOf S w)
    (h' : WinnerOf S w') : w = w' := by
  rcases h with ⟨h1, hS⟩ | ⟨k, h1, hk⟩ <;> rcases h' with ⟨h2, hS'⟩ | ⟨k', h2, hk'⟩
  · rw [h1, h2]
  · exact absurd hk'.1 (hS k')
  · exact absurd hk.1 (hS' k)
  · rw [h1, h2, hk.unique hk']

/-- The cut points of a non-empty line with in-bounds intervals: at least two,
from 0 to the length of the line. -/
theorem cutPoints_shape (line : GoString) (m : MatchMap) (hne : line ≠ [])
    (hb : ∀ k v, Owns m k v → v.1 ≤ v.2 ∧ v.2 ≤ line.length) :
    (cutPoints line m).head? = some 0 ∧ (cutPoints line m).getLast? = some line.length ∧
      2 ≤ (cutPoints line m).length := by
  have hs := sorted_cutPoints line m
  have h0 := zero_mem_cutPoints line m
  have hl := length_mem_cutPoints line m
  refine ⟨sorted_head_zero hs h0, sorted_getLast hs hl (cutPoints_le line m hb), ?_⟩
  have hpos : 0 < line.length := List.length_pos.2 hne
  obtain ⟨i, hi, h0'⟩ := List.getElem_of_mem h0
  obtain ⟨j, hj, hl'⟩ := List.getElem_of_mem hl
  have hij : i ≠ j := by
    intro h
    subst h
    omega
  omega

/-! ## Shared facts about `processLine` -/

theorem owns_bounds_visit {Rx : Type} {env : Env Rx} {Cfg : Config Rx} {line : GoString}
    (hb : InBounds env.findAll Cfg line) (o : RangeOrder) (k : Nat) (v : Interval)
    (h : Owns (o.visit (palette2indexes env.findAll Cfg line)) k v) :
    v.1 ≤ v.2 ∧ v.2 ≤ line.length :=
  owns_inBounds hb k v ((owns_perm (o.perm _) k v).1 h)

/-- The span at position `j` of a non-empty line. -/
theorem spans_getElem {Rx : Type} (env : Env Rx) (Cfg : Config Rx) (line : GoString)
    (hne : line ≠ []) (j : Nat)
    (hj : j + 1 < (cutPoints line (palette2indexes env.findAll Cfg line)).length) :
    (spans env Cfg line)[j]? =
      some ⟨(cutPoints line (palette2indexes env.findAll Cfg line))[j],
        (cutPoints line (palette2indexes env.findAll Cfg line))[j + 1],
        winner (palette2indexes env.findAll Cfg line)
          (cutPoints line (palette2indexes env.findAll Cfg line))[j]
          (cutPoints line (palette2indexes env.findAll Cfg line))[j + 1]⟩ := by
  rw [spans_eq env Cfg line hne, spansFrom_getElem _ 0 _ j hj]

/-- Every span of a line lies between two neighbouring cut points. -/
theorem mem_spans {Rx : Type} {env : Env Rx} {Cfg : Config Rx} {line : GoString} {sp : Span}
    (h : sp ∈ spans env Cfg line) :
    ∃ j, ∃ hj : j + 1 < (cutPoints line (palette2indexes env.findAll Cfg line)).length,
      sp = ⟨(cutPoints line (palette2indexes env.findAll Cfg line))[j],
        (cutPoints line (palette2indexes env.findAll Cfg line))[j + 1],
        winner (palette2indexes env.findAll Cfg line)
          (cutPoints line (palette2indexes env.findAll Cfg line))[j]
          (cutPoints line (palette2indexes env.findAll Cfg line))[j + 1]⟩ := by
  by_cases hne : line = []
  · simp [spans, hne] at h
  · rw [spans_eq env Cfg line hne] at h
    obtain ⟨j, hj, he⟩ := mem_spansFrom h
    exact ⟨j, hj, he⟩

/-- The bounds of a span: `left < right ≤ len(line)` when the intervals are in bounds. -/
theorem span_bounds {Rx : Type} {env : Env Rx} {Cfg : Config Rx} {line : GoString}
    (hb : InBounds env.findAll Cfg line) {sp : Span} (h : sp ∈ spans env Cfg line) :
    sp.left < sp.right ∧ sp.right ≤ line.length := by
  obtain ⟨j, hj, rfl⟩ := mem_spans h
  refine ⟨sorted_getElem_lt (sorted_cutPoints _ _) hj (Nat.lt_succ_self j), ?_⟩
  exact cutPoints_le line _ (fun k v ho => owns_inBounds hb k v ho) _ (List.getElem_mem _)

/-- A winning slot is a slot of the palette. -/
theorem span_winner_lt {Rx : Type} {env : Env Rx} {Cfg : Config Rx} {line : GoString}
    {sp : Span} (h : sp ∈ spans env Cfg line) {k : Nat} (hk : sp.winner = some k) :
    k < Cfg.Palette.length := by
  obtain ⟨j, hj, rfl⟩ := mem_spans h
  simp only at hk
  rcases winner_spec (palette2indexes env.findAll Cfg line)
    (cutPoints line (palette2indexes env.findAll Cfg line))[j]
    (cutPoints line (palette2indexes env.findAll Cfg line))[j + 1] with
    ⟨hw, _⟩ | ⟨k', hw, _, hmem, _⟩
  · rw [hw] at hk
    cases hk
  · rw [hw] at hk
    cases hk
    obtain ⟨v, ho, _⟩ := (mem_paletteList _ _ _ _).1 hmem
    exact owns_key_lt ho

/-- The raw texts of the spans give back the line. -/
theorem spans_rawText {Rx : Type} (env : Env Rx) (Cfg : Config Rx) (line : GoString)
    (hb : InBounds env.findAll Cfg line) :
    ((spans env Cfg line).map (rawText line)).flatten = line := by
  by_cases hne : line = []
  · simp [spans, hne]
  · rw [spans_eq env Cfg line hne]
    obtain ⟨h0, hl, _⟩ := cutPoints_shape line (palette2indexes env.findAll Cfg line) hne
      (fun k v ho => owns_inBounds hb k v ho)
    have hs := sorted_cutPoints line (palette2indexes env.findAll Cfg line)
    cases hc : cutPoints line (palette2indexes env.findAll Cfg line) with
    | nil => rw [hc] at h0; simp at h0
    | cons a t =>
      rw [hc] at h0 hl hs
      simp only [List.head?_cons, Option.some.injEq] at h0
      subst h0
      rw [flatten_rawText line _ t 0 0 hs]
      have : (0 :: t).getLast (List.cons_ne_nil 0 t) = line.length := by
        rw [List.getLast?_eq_getLast _ (List.cons_ne_nil 0 t)] at hl
        exact Option.some.inj hl
      rw [this]
      simp

/-- The value of `processLine`: the pieces of the spans, one after the other. -/
theorem processLine_pieces {Rx : Type} (env : Env Rx) (Cfg : Config Rx) (line : GoString)
    (hb : InBounds env.findAll Cfg line) :
    processLine env Cfg line = .ok (((spans env Cfg line).map (piece env Cfg line)).flatten) := by
  by_cases hne : line = []
  · simp [processLine, spans, hne]
  · unfold processLine spans
    simp only [hne, if_false]
    rw [spanLoop_eq env Cfg line _ _ 0 [] (sorted_cutPoints _ _)
      (cutPoints_le line _ (fun k v ho => owns_bounds_visit hb env.rangeCut k v ho))
      (fun k v ho => owns_key_lt ho)]
    simp

theorem piece_plain {Rx : Type} (env : Env Rx) (Cfg : Config Rx) (line : GoString) (sp : Span) :
    piece { env with render := plainRender } Cfg line sp = rawText line sp := by
  unfold piece
  split <;> rfl

/-! ## The claims on `processLine` -/

/-- C1, content preservation. For every line (bytes) and every configuration
whose match intervals lie in the line, every slice `line[left:right]` of an
emitted span succeeds, these raw texts concatenated in order give back the
line, `processLine` returns the concatenation of the pieces (raw text, wrapped
in the winner's style when there is a winner, the winner being a slot of the
palette), with the colour wrapping removed it returns the line itself, and the
empty line is returned as it is. -/
theorem processLine_content_preservation {Rx : Type} (env : Env Rx) (Cfg : Config Rx)
    (line : GoString) (hb : InBounds env.findAll Cfg line) :
    (∀ sp ∈ spans env Cfg line, slice line sp.left sp.right = .ok (rawText line sp)) ∧
    ((spans env Cfg line).map (rawText line)).flatten = line ∧
    processLine env Cfg line = .ok (((spans env Cfg line).map (piece env Cfg line)).flatten) ∧
    (∀ sp ∈ spans env Cfg line, ∀ k, sp.winner = some k → k < Cfg.Palette.length) ∧
    processLine { env with render := plainRender } Cfg line = .ok line ∧
    processLine env Cfg [] = .ok [] := by
  refine ⟨?_, spans_rawText env Cfg line hb, processLine_pieces env Cfg line hb, ?_, ?_, ?_⟩
  · intro sp hsp
    obtain ⟨h1, h2⟩ := span_bounds hb hsp
    simp [slice, rawText, le_of_lt h1, h2]
  · intro sp hsp k hk
    exact span_winner_lt hsp hk
  · have hb' : InBounds ({ env with render := plainRender } : Env Rx).findAll Cfg line := hb
    rw [processLine_pieces _ Cfg line hb']
    have : (spans { env with render := plainRender } Cfg line).map
        (piece { env with render := plainRender } Cfg line) =
        (spans { env with render := plainRender } Cfg line).map (rawText line) :=
      List.map_congr_left (fun sp _ => piece_plain env Cfg line sp)
    rw [this, spans_rawText _ Cfg line hb']
  · simp [processLine]

/-- C1 at the line `héllo` with the two-byte character matched: the three raw
texts give back the line, the coloured output wraps the middle one. -/
theorem processLine_content_preservation_witness :
    InBounds tableEnv.findAll helloCfg helloLine ∧
    ((spans tableEnv helloCfg helloLine).map (rawText helloLine)).flatten = helloLine ∧
    processLine tableEnv helloCfg helloLine = .ok [104, 91, 195, 169, 93, 108, 108, 111] ∧
    processLine { tableEnv with render := plainRender } helloCfg helloLine = .ok helloLine :=
  have hb : InBounds tableEnv.findAll helloCfg helloLine := by
    unfold InBounds
    decide
  have h := processLine_content_preservation tableEnv helloCfg helloLine hb
  ⟨hb, h.2.1, rfl, h.2.2.2.2.1⟩

theorem spansFrom_chain (visit : Nat → MatchMap) (i : Nat) (l : List Nat) :
    (spansFrom visit i l).Chain' (fun s t => s.right = t.left) := by
  induction l generalizing i with
  | nil => simp [spansFrom]
  | cons a t ih =>
    cases t with
    | nil => simp [spansFrom]
    | cons b t' =>
      simp only [spansFrom]
      rw [List.chain'_cons']
      refine ⟨?_, ih (i + 1)⟩
      cases t' with
      | nil => simp [spansFrom]
      | cons c t'' => simp [spansFrom]

theorem spansFrom_head (visit : Nat → MatchMap) (i : Nat) (l : List Nat) (h : 2 ≤ l.length) :
    (spansFrom visit i l).head?.map Span.left = l.head? := by
  cases l with
  | nil => simp at h
  | cons a t =>
    cases t with
    | nil => simp at h
    | cons b t' => simp [spansFrom]

theorem spansFrom_getLast (visit : Nat → MatchMap) (i : Nat) (l : List Nat) (h : 2 ≤ l.length) :
    (spansFrom visit i l).getLast?.map Span.right = l.getLast? := by
  rw [List.getLast?_eq_getElem?, List.getLast?_eq_getElem?, spansFrom_length]
  have hj : l.length - 1 - 1 + 1 < l.length := by omega
  rw [spansFrom_getElem visit i l (l.length - 1 - 1) hj]
  have h1 : l.length - 1 < l.length := by omega
  rw [List.getElem?_eq_getElem h1]
  simp only [Option.map_some', Option.some.injEq]
  congr 1
  omega

/-- C2, coverage. For every non-empty line and every family of per-slot match
intervals `[s,e]` with `s ≤ e ≤ len(line)`, the cut points are exactly 0, the
length of the line and the interval end points, strictly increasing, the first
is 0 and the last is the length of the line; the spans are the pairs of
neighbouring cut points, each span ends where the next one starts, the first
starts at 0, the last ends at the length of the line, and every span has
`left < right` (no gap, no overlap). -/
theorem cutPoints_coverage (line : GoString) (m : MatchMap) (visit : Nat → MatchMap)
    (hne : line ≠ []) (hb : ∀ e ∈ m, ∀ v ∈ e.2, v.1 ≤ v.2 ∧ v.2 ≤ line.length) :
    (∀ x, x ∈ cutPoints line m ↔
      x = 0 ∨ x = line.length ∨ ∃ e ∈ m, ∃ v ∈ e.2, x = v.1 ∨ x = v.2) ∧
    (cutPoints line m).Sorted (· < ·) ∧
    (cutPoints line m).head? = some 0 ∧
    (cutPoints line m).getLast? = some line.length ∧
    (spansFrom visit 0 (cutPoints line m)).length + 1 = (cutPoints line m).length ∧
    (∀ i, ∀ h : i + 1 < (cutPoints line m).length,
      (spansFrom visit 0 (cutPoints line m))[i]? =
        some ⟨(cutPoints line m)[i], (cutPoints line m)[i + 1],
          winner (visit i) (cutPoints line m)[i] (cutPoints line m)[i + 1]⟩) ∧
    (spansFrom visit 0 (cutPoints line m)).Chain' (fun s t => s.right = t.left) ∧
    (spansFrom visit 0 (cutPoints line m)).head?.map Span.left = some 0 ∧
    (spansFrom visit 0 (cutPoints line m)).getLast?.map Span.right = some line.length ∧
    ∀ sp ∈ spansFrom visit 0 (cutPoints line m), sp.left < sp.right := by
  have hb' : ∀ k v, Owns m k v → v.1 ≤ v.2 ∧ v.2 ≤ line.length := by
    rintro k v ⟨ivs, h1, h2⟩
    exact hb (k, ivs) h1 v h2
  obtain ⟨h0, hl, h2⟩ := cutPoints_shape line m hne hb'
  refine ⟨?_, sorted_cutPoints line m, h0, hl, ?_, ?_, spansFrom_chain _ _ _, ?_, ?_, ?_⟩
  · intro x
    rw [mem_cutPoints, mem_collectIndexes]
    constructor
    · rintro (h | h | ⟨k, v, ⟨ivs, h1, h2⟩, h⟩)
      · exact Or.inl h
      · exact Or.inr (Or.inl h)
      · exact Or.inr (Or.inr ⟨(k, ivs), h1, v, h2, h⟩)
    · rintro (h | h | ⟨⟨k, ivs⟩, h1, v, h2, h⟩)
      · exact Or.inl h
      · exact Or.inr (Or.inl h)
      · exact Or.inr (Or.inr ⟨k, v, ⟨ivs, h1, h2⟩, h⟩)
  · rw [spansFrom_length]
    omega
  · intro i h
    rw [spansFrom_getElem visit 0 _ i h]
    simp
  · rw [spansFrom_head visit 0 _ h2, h0]
  · rw [spansFrom_getLast visit 0 _ h2, hl]
  · intro sp hsp
    obtain ⟨j, hj, rfl⟩ := mem_spansFrom hsp
    exact sorted_getElem_lt (sorted_cutPoints _ _) hj (Nat.lt_succ_self j)

/-- C2 at the line `abcabc` with the intervals of the patterns `abc` and
`bca?`: the cut points are 0, 1, 3, 4, 6. -/
theorem cutPoints_coverage_witness :
    abcLine ≠ [] ∧
    (∀ e ∈ palette2indexes tableEnv.findAll abcCfg abcLine, ∀ v ∈ e.2,
      v.1 ≤ v.2 ∧ v.2 ≤ abcLine.length) ∧
    cutPoints abcLine (palette2indexes tableEnv.findAll abcCfg abcLine) = [0, 1, 3, 4, 6] ∧
    (cutPoints abcLine (palette2indexes tableEnv.findAll abcCfg abcLine)).Sorted (· < ·) ∧
    (spansFrom (fun _ => palette2indexes tableEnv.findAll abcCfg abcLine) 0
      (cutPoints abcLine (palette2indexes tableEnv.findAll abcCfg abcLine))).Chain'
        (fun s t => s.right = t.left) :=
  have hne : abcLine ≠ [] := by decide
  have hb : ∀ e ∈ palette2indexes tableEnv.findAll abcCfg abcLine, ∀ v ∈ e.2,
      v.1 ≤ v.2 ∧ v.2 ≤ abcLine.length := by decide
  have h := cutPoints_coverage abcLine (palette2indexes tableEnv.findAll abcCfg abcLine)
    (fun _ => palette2indexes tableEnv.findAll abcCfg abcLine) hne hb
  ⟨hne, hb, by decide, h.2.1, h.2.2.2.2.2.2.1⟩

theorem indexes_eq {Rx : Type} (env : Env Rx) (Cfg : Config Rx) (line : GoString) :
    indexes env Cfg line = cutPoints line (palette2indexes env.findAll Cfg line) :=
  cutPoints_perm (env.rangeCut.perm _) line

theorem covering_visit (o : RangeOrder) (m : MatchMap) (left right : Nat) :
    Covering (o.visit m) left right = Covering m left right := by
  ext k
  simp only [Covering, Set.mem_setOf_eq, owns_perm (o.perm m)]

/-- Two neighbouring elements of `indexes`: the span between them. -/
theorem indexes_pair {Rx : Type} (env : Env Rx) (Cfg : Config Rx) (line : GoString)
    {i left right : Nat} (hl : (indexes env Cfg line)[i]? = some left)
    (hr : (indexes env Cfg line)[i + 1]? = some right) :
    left < right ∧
    (∀ x ∈ indexes env Cfg line, x ≤ left ∨ right ≤ x) ∧
    (line ≠ [] → (spans env Cfg line)[i]? =
      some ⟨left, right, winner (palette2indexes env.findAll Cfg line) left right⟩) := by
  obtain ⟨hi, rfl⟩ := List.getElem?_eq_some.1 hl
  obtain ⟨hi', rfl⟩ := List.getElem?_eq_some.1 hr
  have hs : (indexes env Cfg line).Sorted (· < ·) := sorted_cutPoints _ _
  refine ⟨sorted_getElem_lt hs hi' (Nat.lt_succ_self i), ?_, ?_⟩
  · intro x hx
    exact sorted_no_between hs hi' hx
  · intro hne
    have hi2 : i + 1 < (cutPoints line (palette2indexes env.findAll Cfg line)).length := by
      rw [← indexes_eq]
      exact hi'
    rw [spans_getElem env Cfg line hne i hi2]
    simp only [indexes_eq]

theorem renderSpan_none {Rx : Type} (env : Env Rx) (Cfg : Config Rx) (line : GoString)
    (m : MatchMap) (left right : Nat) (h : winner m left right = none) :
    renderSpan env Cfg line m left right = slice line left right := by
  rcases winner_spec m left right with ⟨_, hp⟩ | ⟨k, hw, _⟩
  · simp [renderSpan, hp]
  · rw [hw] at h
    cases h

theorem renderSpan_some {Rx : Type} (env : Env Rx) (Cfg : Config Rx) (line : GoString)
    (m : MatchMap) (left right : Nat) {k : Nat} {p : Palette Rx}
    (h : winner m left right = some k) (hp : Cfg.Palette[k]? = some p) :
    renderSpan env Cfg line m left right =
      (slice line left right).map (env.render (styleOf p)) := by
  rcases winner_spec m left right with ⟨hw, _⟩ | ⟨k', hw, hmax, hmem, _⟩
  · rw [hw] at h
    cases h
  · rw [hw] at h
    cases h
    have hne : (paletteList m left right).length ≠ 0 := by
      intro h0
      rw [List.length_eq_zero] at h0
      rw [h0] at hmem
      simp at hmem
    simp only [renderSpan, hne, if_false, hmax, index, bind, Except.bind, hp, pure,
      Except.pure, Except.map]

/-- The scenario `ERROR: failed`, whatever the visiting orders and the renderer. -/
theorem spans_errorLine (env : Env TableRx) (h : env.findAll = tableEnv.findAll) :
    spans env errorCfg errorLine = [⟨0, 5, some 0⟩, ⟨5, 13, none⟩] := by
  rw [spans_eq env errorCfg errorLine (by decide), h]
  decide

/-- The scenario `abcabc`, whatever the visiting orders and the renderer. -/
theorem spans_abcLine (env : Env TableRx) (h : env.findAll = tableEnv.findAll) :
    indexes env abcCfg abcLine = [0, 1, 3, 4, 6] ∧
    spans env abcCfg abcLine =
      [⟨0, 1, some 0⟩, ⟨1, 3, some 1⟩, ⟨3, 4, some 1⟩, ⟨4, 6, some 1⟩] := by
  rw [spans_eq env abcCfg abcLine (by decide), indexes_eq, h]
  decide

/-- C3, the winner of a span. For two neighbouring cut points `(left, right)`
that `processLine` visits in iteration `i`, `S` being the set of the slots that
own an interval `[v0,v1]` with `v0 ≤ left` and `right ≤ v1`: the four-part test
of the code is this containment, `paletteList` holds exactly the slots of `S`,
the span is the `i`-th emitted span and its winner is none when `S` is empty
and the greatest element of `S` otherwise; with no winner the iteration writes
the raw text only, with winner `k` it writes the text rendered in the style of
palette slot `k`. The line `ERROR: failed` with slot 0 owning `[0,5]` yields
the spans `(0,5,slot 0)` and `(5,13,none)`. -/
theorem processLine_span_winner {Rx : Type} (env : Env Rx) (Cfg : Config Rx) (line : GoString)
    (i left right : Nat) (hl : (indexes env Cfg line)[i]? = some left)
    (hr : (indexes env Cfg line)[i + 1]? = some right) :
    (∀ v, covers v left right = true ↔ v.1 ≤ left ∧ right ≤ v.2) ∧
    (∀ k, k ∈ paletteList ((env.rangeSpan i).visit (palette2indexes env.findAll Cfg line))
        left right ↔ k ∈ Covering (palette2indexes env.findAll Cfg line) left right) ∧
    (line ≠ [] → ∃ w, (spans env Cfg line)[i]? = some ⟨left, right, w⟩ ∧
      WinnerOf (Covering (palette2indexes env.findAll Cfg line) left right) w) ∧
    ((∀ k, k ∉ Covering (palette2indexes env.findAll Cfg line) left right) →
      renderSpan env Cfg line ((env.rangeSpan i).visit (palette2indexes env.findAll Cfg line))
        left right = slice line left right) ∧
    (∀ k, IsGreatest (Covering (palette2indexes env.findAll Cfg line) left right) k →
      ∃ p, Cfg.Palette[k]? = some p ∧
        renderSpan env Cfg line ((env.rangeSpan i).visit (palette2indexes env.findAll Cfg line))
          left right = (slice line left right).map (env.render (styleOf p))) ∧
    (∀ env' : Env TableRx, env'.findAll = tableEnv.findAll →
      spans env' errorCfg errorLine = [⟨0, 5, some 0⟩, ⟨5, 13, none⟩]) := by
  obtain ⟨hlt, _, hsp⟩ := indexes_pair env Cfg line hl hr
  have hle := le_of_lt hlt
  have hW := winner_winnerOf ((env.rangeSpan i).visit (palette2indexes env.findAll Cfg line)) hle
  rw [covering_visit] at hW
  refine ⟨fun v => covers_iff v hle, ?_, ?_, ?_, ?_, spans_errorLine⟩
  · intro k
    rw [mem_paletteList, ← covering_visit (env.rangeSpan i)]
    simp only [Covering, Set.mem_setOf_eq, covers_iff _ hle]
  · intro hne
    exact ⟨_, hsp hne, winner_winnerOf _ hle⟩
  · intro hS
    apply renderSpan_none
    rcases hW with ⟨hw, _⟩ | ⟨k, _, hk⟩
    · exact hw
    · exact absurd hk.1 (hS k)
  · intro k hk
    have hw : winner ((env.rangeSpan i).visit (palette2indexes env.findAll Cfg line))
        left right = some k :=
      winnerOf_unique hW (Or.inr ⟨k, rfl, hk⟩)
    obtain ⟨v, ho, _⟩ := hk.1
    have hlt' : k < Cfg.Palette.length := owns_key_lt ho
    exact ⟨Cfg.Palette[k], List.getElem?_eq_getElem hlt',
      renderSpan_some env Cfg line _ left right hw (List.getElem?_eq_getElem hlt')⟩

/-- C3 at the first span of `ERROR: failed`: the cut points 0 and 5, the
winner is slot 0 and the iteration writes the bracketed text `ERROR`. -/
theorem processLine_span_winner_witness :
    (indexes tableEnv errorCfg errorLine)[0]? = some 0 ∧
    (indexes tableEnv errorCfg errorLine)[0 + 1]? = some 5 ∧
    (∃ w, (spans tableEnv errorCfg errorLine)[0]? = some ⟨0, 5, w⟩ ∧
      WinnerOf (Covering (palette2indexes tableEnv.findAll errorCfg errorLine) 0 5) w) ∧
    spans tableEnv errorCfg errorLine = [⟨0, 5, some 0⟩, ⟨5, 13, none⟩] :=
  have hl : (indexes tableEnv errorCfg errorLine)[0]? = some 0 := by decide
  have hr : (indexes tableEnv errorCfg errorLine)[0 + 1]? = some 5 := by decide
  have h := processLine_span_winner tableEnv errorCfg errorLine 0 0 5 hl hr
  ⟨hl, hr, h.2.2.1 (by decide), h.2.2.2.2.2 tableEnv rfl⟩

/-- In a strictly increasing list every value from the first element up to,
and not including, the last one lies between two neighbours. -/
theorem sorted_locate {l : List Nat} (hs : l.Sorted (· < ·)) {p first last : Nat}
    (h0 : l.head? = some first) (hl : l.getLast? = some last) (hp1 : first ≤ p)
    (hp2 : p < last) : ∃ j, ∃ h : j + 1 < l.length, l[j] ≤ p ∧ p < l[j + 1] := by
  induction l generalizing first with
  | nil => simp at h0
  | cons a t ih =>
    cases t with
    | nil =>
      simp only [List.head?_cons, Option.some.injEq] at h0
      simp only [List.getLast?_singleton, Option.some.injEq] at hl
      omega
    | cons b t' =>
      simp only [List.head?_cons, Option.some.injEq] at h0
      subst h0
      by_cases hpb : p < b
      · exact ⟨0, by simp, by simpa using hp1, by simpa using hpb⟩
      · rw [List.getLast?_cons_cons] at hl
        obtain ⟨j, hj, h1, h2⟩ := ih hs.of_cons (List.head?_cons) hl (not_lt.1 hpb)
        refine ⟨j + 1, ?_, ?_, ?_⟩
        · simp only [List.length_cons] at hj ⊢
          omega
        · simpa using h1
        · simpa using h2

theorem sorted_locate_unique {l : List Nat} (hs : l.Sorted (· < ·)) {p i j : Nat}
    (hi : i + 1 < l.length) (hj : j + 1 < l.length) (hi1 : l[i] ≤ p) (hi2 : p < l[i + 1])
    (hj1 : l[j] ≤ p) (hj2 : p < l[j + 1]) : i = j := by
  rcases Nat.lt_trichotomy i j with h | h | h
  · have := sorted_getElem_le hs (a := i + 1) (b := j) (by omega) (by omega)
    omega
  · exact h
  · have := sorted_getElem_le hs (a := j + 1) (b := i) (by omega) (by omega)
    omega

/-- Inside a span a position is covered by the same slots as the whole span. -/
theorem coveringAt_eq_covering (line : GoString) (m : MatchMap) {left right p : Nat}
    (hno : ∀ x ∈ cutPoints line m, x ≤ left ∨ right ≤ x) (h1 : left ≤ p) (h2 : p < right) :
    CoveringAt m p = Covering m left right := by
  ext k
  simp only [CoveringAt, Covering, Set.mem_setOf_eq]
  constructor
  · rintro ⟨v, ho, hv1, hv2⟩
    refine ⟨v, ho, ?_, ?_⟩
    · have hm : v.1 ∈ cutPoints line m :=
        (mem_cutPoints _ _ _).2 ((mem_collectIndexes _ _ _).2
          (Or.inr (Or.inr ⟨k, v, ho, Or.inl rfl⟩)))
      rcases hno _ hm with h | h
      · exact h
      · omega
    · have hm : v.2 ∈ cutPoints line m :=
        (mem_cutPoints _ _ _).2 ((mem_collectIndexes _ _ _).2
          (Or.inr (Or.inr ⟨k, v, ho, Or.inr rfl⟩)))
      rcases hno _ hm with h | h
      · omega
      · exact h
  · rintro ⟨v, ho, hv1, hv2⟩
    exact ⟨v, ho, by omega, by omega⟩

/-- C4, resolution per position. For every non-empty line, every
configuration whose match intervals lie in the line and every byte position
`p < len(line)`: `p` lies in exactly one emitted span, the slots that own an
interval `[v0,v1]` with `v0 ≤ p < v1` are the slots that own an interval
containing the whole span, and the winner of the span is none when there is no
such slot and the greatest such slot otherwise. -/
theorem processLine_position_winner {Rx : Type} (env : Env Rx) (Cfg : Config Rx)
    (line : GoString) (hne : line ≠ []) (hb : InBounds env.findAll Cfg line) (p : Nat)
    (hp : p < line.length) :
    ∃ (i : Nat) (sp : Span), (spans env Cfg line)[i]? = some sp ∧ sp.left ≤ p ∧ p < sp.right ∧
      (∀ (j : Nat) (sp' : Span), (spans env Cfg line)[j]? = some sp' → sp'.left ≤ p → p < sp'.right → j = i) ∧
      CoveringAt (palette2indexes env.findAll Cfg line) p =
        Covering (palette2indexes env.findAll Cfg line) sp.left sp.right ∧
      WinnerOf (CoveringAt (palette2indexes env.findAll Cfg line) p) sp.winner := by
  have hs := sorted_cutPoints line (palette2indexes env.findAll Cfg line)
  obtain ⟨h0, hl, _⟩ := cutPoints_shape line (palette2indexes env.findAll Cfg line) hne
    (fun k v ho => owns_inBounds hb k v ho)
  obtain ⟨i, hi, h1, h2⟩ := sorted_locate hs h0 hl (Nat.zero_le p) hp
  have hlt := sorted_getElem_lt hs hi (Nat.lt_succ_self i)
  have hcov := coveringAt_eq_covering line (palette2indexes env.findAll Cfg line)
    (fun x hx => sorted_no_between hs hi hx) h1 h2
  refine ⟨i, _, spans_getElem env Cfg line hne i hi, h1, h2, ?_, hcov, ?_⟩
  · intro j sp' hj hj1 hj2
    have hjl : j < (spans env Cfg line).length := (List.getElem?_eq_some.1 hj).1
    have hj' : j + 1 < (cutPoints line (palette2indexes env.findAll Cfg line)).length := by
      rw [spans_eq env Cfg line hne, spansFrom_length] at hjl
      omega
    rw [spans_getElem env Cfg line hne j hj'] at hj
    cases hj
    exact sorted_locate_unique hs hj' hi hj1 hj2 h1 h2
  · rw [hcov]
    exact winner_winnerOf _ (le_of_lt hlt)

/-- C4 at byte 2 of `abcabc`: it lies in the span `(1,3)`, which slot 1 wins. -/
theorem processLine_position_winner_witness :
    abcLine ≠ [] ∧ InBounds tableEnv.findAll abcCfg abcLine ∧ 2 < abcLine.length ∧
    ∃ (i : Nat) (sp : Span), (spans tableEnv abcCfg abcLine)[i]? = some sp ∧ sp.left ≤ 2 ∧ 2 < sp.right ∧
      (∀ (j : Nat) (sp' : Span), (spans tableEnv abcCfg abcLine)[j]? = some sp' → sp'.left ≤ 2 →
        2 < sp'.right → j = i) ∧
      CoveringAt (palette2indexes tableEnv.findAll abcCfg abcLine) 2 =
        Covering (palette2indexes tableEnv.findAll abcCfg abcLine) sp.left sp.right ∧
      WinnerOf (CoveringAt (palette2indexes tableEnv.findAll abcCfg abcLine) 2) sp.winner :=
  have hne : abcLine ≠ [] := by decide
  have hb : InBounds tableEnv.findAll abcCfg abcLine := by
    unfold InBounds
    decide
  have hp : 2 < abcLine.length := by decide
  ⟨hne, hb, hp, processLine_position_winner tableEnv abcCfg abcLine hne hb 2 hp⟩

/-- C5, priority. For a span `(left, right)` that `processLine` visits in
iteration `i`, a slot `b` that owns an interval containing the whole span and
a slot `a < b` (that contains the span too, or not): the span does not resolve
to slot `a`; when no slot above `b` contains the span it resolves to slot `b`
and is rendered in the style of slot `b`, whatever the other slots are and
match. The line `abcabc` with slot 0
owning `[0,3]`, `[3,6]` and slot 1 owning `[1,4]`, `[4,6]` has the cut points
0, 1, 3, 4, 6 and the spans `(0,1,slot 0)`, `(1,3,slot 1)`, `(3,4,slot 1)`,
`(4,6,slot 1)`. -/
theorem processLine_priority {Rx : Type} (env : Env Rx) (Cfg : Config Rx) (line : GoString)
    (i left right : Nat) (hl : (indexes env Cfg line)[i]? = some left)
    (hr : (indexes env Cfg line)[i + 1]? = some right) (a b : Nat) (hab : a < b)
    (hb : b ∈ Covering (palette2indexes env.findAll Cfg line) left right) :
    winner ((env.rangeSpan i).visit (palette2indexes env.findAll Cfg line)) left right
      ≠ some a ∧
    (line ≠ [] → (spans env Cfg line)[i]? = some ⟨left, right,
      winner ((env.rangeSpan i).visit (palette2indexes env.findAll Cfg line)) left right⟩) ∧
    ((∀ c, b < c → c ∉ Covering (palette2indexes env.findAll Cfg line) left right) →
      winner ((env.rangeSpan i).visit (palette2indexes env.findAll Cfg line)) left right
        = some b ∧
      ∃ p, Cfg.Palette[b]? = some p ∧
        renderSpan env Cfg line ((env.rangeSpan i).visit (palette2indexes env.findAll Cfg line))
          left right = (slice line left right).map (env.render (styleOf p))) ∧
    (∀ env' : Env TableRx, env'.findAll = tableEnv.findAll →
      indexes env' abcCfg abcLine = [0, 1, 3, 4, 6] ∧
      spans env' abcCfg abcLine =
        [⟨0, 1, some 0⟩, ⟨1, 3, some 1⟩, ⟨3, 4, some 1⟩, ⟨4, 6, some 1⟩]) := by
  obtain ⟨hlt, _, hsp⟩ := indexes_pair env Cfg line hl hr
  have hle := le_of_lt hlt
  have hW := winner_winnerOf ((env.rangeSpan i).visit (palette2indexes env.findAll Cfg line)) hle
  rw [covering_visit] at hW
  have hwp := winner_perm ((env.rangeSpan i).perm (palette2indexes env.findAll Cfg line))
    left right
  refine ⟨?_, ?_, ?_, spans_abcLine⟩
  · intro h
    rcases hW with ⟨hw, _⟩ | ⟨k, hw, hk⟩
    · rw [hw] at h
      cases h
    · rw [hw] at h
      cases h
      have := hk.2 hb
      omega
  · intro hne
    rw [hwp]
    exact hsp hne
  · intro htop
    have hg : IsGreatest (Covering (palette2indexes env.findAll Cfg line) left right) b := by
      refine ⟨hb, fun c hc => ?_⟩
      by_contra hcb
      exact htop c (not_le.1 hcb) hc
    have hw := winnerOf_unique hW (Or.inr ⟨b, rfl, hg⟩)
    obtain ⟨v, ho, _⟩ := hb
    have hlt' : b < Cfg.Palette.length := owns_key_lt ho
    exact ⟨hw, Cfg.Palette[b], List.getElem?_eq_getElem hlt',
      renderSpan_some env Cfg line _ left right hw (List.getElem?_eq_getElem hlt')⟩

/-- C5 at the span `(1,3)` of `abcabc`, which `[0,3]` of slot 0 and `[1,4]` of
slot 1 both contain: the winner is slot 1. -/
theorem processLine_priority_witness :
    (indexes tableEnv abcCfg abcLine)[1]? = some 1 ∧
    (indexes tableEnv abcCfg abcLine)[1 + 1]? = some 3 ∧
    0 ∈ Covering (palette2indexes tableEnv.findAll abcCfg abcLine) 1 3 ∧
    1 ∈ Covering (palette2indexes tableEnv.findAll abcCfg abcLine) 1 3 ∧
    winner ((tableEnv.rangeSpan 1).visit (palette2indexes tableEnv.findAll abcCfg abcLine)) 1 3
      ≠ some 0 ∧
    (spans tableEnv abcCfg abcLine)[1]? = some ⟨1, 3, some 1⟩ :=
  have hl : (indexes tableEnv abcCfg abcLine)[1]? = some 1 := by decide
  have hr : (indexes tableEnv abcCfg abcLine)[1 + 1]? = some 3 := by decide
  have ha : 0 ∈ Covering (palette2indexes tableEnv.findAll abcCfg abcLine) 1 3 :=
    ⟨(0, 3), ⟨[(0, 3), (3, 6)], by decide, by decide⟩, by decide, by decide⟩
  have hb : 1 ∈ Covering (palette2indexes tableEnv.findAll abcCfg abcLine) 1 3 :=
    ⟨(1, 4), ⟨[(1, 4), (4, 6)], by decide, by decide⟩, by decide, by decide⟩
  have h := processLine_priority tableEnv abcCfg abcLine 1 1 3 hl hr 0 1 (by decide) hb
  ⟨hl, hr, ha, hb, h.1, by decide⟩

/-- C6 as stated fails: on the line `ab` with one slot whose pattern `[a-z]`
matches each letter, `processLine` emits the two spans `(0,1)` and `(1,2)`,
both won by slot 0. -/
theorem processLine_not_minimal :
    spans tableEnv azCfg azLine = [⟨0, 1, some 0⟩, ⟨1, 2, some 0⟩] ∧
    ¬ Minimal (spans tableEnv azCfg azLine) := by
  have h : spans tableEnv azCfg azLine = [⟨0, 1, some 0⟩, ⟨1, 2, some 0⟩] := by decide
  refine ⟨h, ?_⟩
  rw [h]
  simp [Minimal]

/-- C6 as amended. For every line and every configuration whose match
intervals lie in the line, the spans are cut exactly at the interval end
points: every span has `left < right`, and the boundary between two adjacent
spans is the start or the end of a match interval. -/
theorem processLine_spans_cut_at_endpoints {Rx : Type} (env : Env Rx) (Cfg : Config Rx)
    (line : GoString) (hb : InBounds env.findAll Cfg line) :
    (∀ sp ∈ spans env Cfg line, sp.left < sp.right) ∧
    ∀ (i : Nat) (s t : Span), (spans env Cfg line)[i]? = some s →
      (spans env Cfg line)[i + 1]? = some t →
      s.right = t.left ∧
      ∃ k v, Owns (palette2indexes env.findAll Cfg line) k v ∧
        (v.1 = s.right ∨ v.2 = s.right) := by
  refine ⟨fun sp hsp => (span_bounds hb hsp).1, ?_⟩
  intro i s t hs ht
  by_cases hne : line = []
  · simp [spans, hne] at hs
  have hsl : i + 1 < (spans env Cfg line).length := (List.getElem?_eq_some.1 ht).1
  have hi : i + 1 + 1 < (cutPoints line (palette2indexes env.findAll Cfg line)).length := by
    rw [spans_eq env Cfg line hne, spansFrom_length] at hsl
    omega
  rw [spans_getElem env Cfg line hne i (by omega)] at hs
  rw [spans_getElem env Cfg line hne (i + 1) hi] at ht
  cases hs
  cases ht
  refine ⟨rfl, ?_⟩
  have hsorted := sorted_cutPoints line (palette2indexes env.findAll Cfg line)
  have h1 := sorted_getElem_lt hsorted (a := i) (b := i + 1) (by omega) (Nat.lt_succ_self i)
  have h2 := sorted_getElem_lt hsorted (a := i + 1) (b := i + 1 + 1) hi (Nat.lt_succ_self _)
  have h3 := cutPoints_le line _ (fun k v ho => owns_inBounds hb k v ho)
    (cutPoints line (palette2indexes env.findAll Cfg line))[i + 1 + 1] (List.getElem_mem _)
  have hm : (cutPoints line (palette2indexes env.findAll Cfg line))[i + 1] ∈
      cutPoints line (palette2indexes env.findAll Cfg line) := List.getElem_mem _
  rcases (mem_collectIndexes _ _ _).1 ((mem_cutPoints _ _ _).1 hm) with h | h | ⟨k, v, ho, h⟩
  · omega
  · omega
  · refine ⟨k, v, ho, ?_⟩
    rcases h with h | h
    · exact Or.inl h.symm
    · exact Or.inr h.symm

/-- C6 as amended, at the line `abcabc`: four non-empty spans, each boundary
an end point of a match interval. -/
theorem processLine_spans_cut_at_endpoints_witness :
    InBounds tableEnv.findAll abcCfg abcLine ∧
    (∀ sp ∈ spans tableEnv abcCfg abcLine, sp.left < sp.right) ∧
    ∀ (i : Nat) (s t : Span), (spans tableEnv abcCfg abcLine)[i]? = some s →
      (spans tableEnv abcCfg abcLine)[i + 1]? = some t →
      s.right = t.left ∧
      ∃ k v, Owns (palette2indexes tableEnv.findAll abcCfg abcLine) k v ∧
        (v.1 = s.right ∨ v.2 = s.right) :=
  have hb : InBounds tableEnv.findAll abcCfg abcLine := by
    unfold InBounds
    decide
  ⟨hb, processLine_spans_cut_at_endpoints tableEnv abcCfg abcLine hb⟩

/-- C7, no-match passthrough. For every non-empty line and every configuration
none of whose patterns matches on the line, the cut points are 0 and the length
of the line, `processLine` emits the one span `(0, len(line))` without winner,
and it returns the line itself. -/
theorem processLine_no_match {Rx : Type} (env : Env Rx) (Cfg : Config Rx) (line : GoString)
    (hne : line ≠ [])
    (hno : ∀ p ∈ Cfg.Palette, ∀ r ∈ p.RegexpList, env.findAll r line = []) :
    indexes env Cfg line = [0, line.length] ∧
    spans env Cfg line = [⟨0, line.length, none⟩] ∧
    processLine env Cfg line = .ok line := by
  have hown : ∀ k v, ¬ Owns (palette2indexes env.findAll Cfg line) k v := by
    intro k v ho
    obtain ⟨p, hp, r, hr, hv⟩ := (owns_palette2indexes env.findAll Cfg line k v).1 ho
    rw [hno p (List.getElem?_mem hp) r hr] at hv
    simp at hv
  have hb : InBounds env.findAll Cfg line := by
    intro p hp r hr v hv
    rw [hno p hp r hr] at hv
    simp at hv
  have hpos : 0 < line.length := List.length_pos.2 hne
  have hcut : cutPoints line (palette2indexes env.findAll Cfg line) = [0, line.length] := by
    apply sorted_lt_ext (sorted_cutPoints _ _)
    · simp [List.Sorted, hpos]
    · intro x
      rw [mem_cutPoints, mem_collectIndexes]
      simp only [List.mem_cons, List.mem_singleton, List.not_mem_nil, or_false]
      constructor
      · rintro (h | h | ⟨k, v, ho, _⟩)
        · exact Or.inl h
        · exact Or.inr h
        · exact absurd ho (hown k v)
      · rintro (h | h)
        · exact Or.inl h
        · exact Or.inr (Or.inl h)
  have hw : winner (palette2indexes env.findAll Cfg line) 0 line.length = none := by
    rcases winner_spec (palette2indexes env.findAll Cfg line) 0 line.length with
      ⟨h, _⟩ | ⟨k, _, _, hmem, _⟩
    · exact h
    · obtain ⟨v, ho, _⟩ := (mem_paletteList _ _ _ _).1 hmem
      exact absurd ho (hown k v)
  have hspans : spans env Cfg line = [⟨0, line.length, none⟩] := by
    rw [spans_eq env Cfg line hne, hcut]
    simp [spansFrom, hw]
  refine ⟨by rw [indexes_eq, hcut], hspans, ?_⟩
  rw [processLine_pieces env Cfg line hb, hspans]
  simp [piece, rawText]

/-- C7 at the line `plain text` with three slots whose patterns find nothing. -/
theorem processLine_no_match_witness :
    plainLine ≠ [] ∧
    (∀ p ∈ quietCfg.Palette, ∀ r ∈ p.RegexpList, tableEnv.findAll r plainLine = []) ∧
    spans tableEnv quietCfg plainLine = [⟨0, 10, none⟩] ∧
    processLine tableEnv quietCfg plainLine = .ok plainLine :=
  have hne : plainLine ≠ [] := by decide
  have hno : ∀ p ∈ quietCfg.Palette, ∀ r ∈ p.RegexpList, tableEnv.findAll r plainLine = [] := by
    decide
  have h := processLine_no_match tableEnv quietCfg plainLine hne hno
  ⟨hne, hno, h.2.1, h.2.2⟩

/-! ## Lemmas on the distribution of patterns -/

theorem nextIndex_mod (n s : Nat) (hn : 0 < n) : nextIndex n (s % n) = (s + 1) % n := by
  have hlt : s % n < n := Nat.mod_lt s hn
  rw [← Nat.mod_add_mod s n 1]
  unfold nextIndex
  by_cases h : s % n + 1 = n
  · have h1 : ((s % n + 1 : Nat) : Int) > (n : Int) - 1 := by omega
    rw [if_pos h1, h, Nat.mod_self]
  · have h1 : ¬ ((s % n + 1 : Nat) : Int) > (n : Int) - 1 := by omega
    rw [if_neg h1]
    exact (Nat.mod_eq_of_lt (by omega)).symm

theorem appendPatterns_ok {Rx : Type} (ps : List (Palette Rx)) (j : Nat) (hj : j < ps.length)
    (ms : List String) :
    appendPatterns ps j ms =
      .ok (ps.set j { ps[j] with RegexpStringList := ps[j].RegexpStringList ++ ms }) := by
  unfold appendPatterns
  rw [List.getElem?_eq_getElem hj]

theorem getElem?_addShares {Rx : Type} (ps : List (Palette Rx)) (share : Nat → List String)
    (k : Nat) :
    (addShares ps share)[k]? =
      ps[k]?.map (fun p => { p with RegexpStringList := p.RegexpStringList ++ share k }) := by
  unfold addShares
  rw [List.getElem?_map, List.getElem?_enum]
  cases ps[k]? <;> rfl

theorem length_addShares {Rx : Type} (ps : List (Palette Rx)) (share : Nat → List String) :
    (addShares ps share).length = ps.length := by
  simp [addShares, List.enum_length]

theorem addShares_nil {Rx : Type} (ps : List (Palette Rx)) :
    addShares ps (fun _ => []) = ps := by
  apply List.ext_getElem?
  intro k
  rw [getElem?_addShares]
  cases ps[k]? <;> simp

theorem addShares_addShares {Rx : Type} (ps : List (Palette Rx)) (f g : Nat → List String) :
    addShares (addShares ps f) g = addShares ps (fun k => f k ++ g k) := by
  apply List.ext_getElem?
  intro k
  rw [getElem?_addShares, getElem?_addShares, getElem?_addShares]
  cases ps[k]? <;> simp

theorem addShares_congr {Rx : Type} (ps : List (Palette Rx)) {f g : Nat → List String}
    (h : ∀ k, f k = g k) : addShares ps f = addShares ps g := by
  have : f = g := funext h
  rw [this]

theorem blockShare_nil (n k s : Nat) : blockShare n k s [] = [] := by
  simp [blockShare]

theorem blockShare_cons (n k s : Nat) (b : List String) (rest : List (List String)) :
    blockShare n k s (b :: rest) =
      (if s % n = k then b else []) ++ blockShare n k (s + 1) rest := by
  unfold blockShare
  rw [List.enumFrom_cons]
  by_cases h : s % n = k
  · simp [List.filter_cons, h]
  · simp [List.filter_cons, h]

/-- The distribution loop, started with the cursor at `s mod n`: slot `k` gets
the blocks numbered `k` modulo `n`, and the cursor ends at `(s + blocks) mod n`. -/
theorem distributeBlocks_eq {Rx : Type} (blocks : List (List String)) (ps : List (Palette Rx))
    (s : Nat) (hn : 0 < ps.length) :
    distributeBlocks ps (s % ps.length) blocks =
      .ok (addShares ps (fun k => blockShare ps.length k s blocks),
        (s + blocks.length) % ps.length) := by
  induction blocks generalizing ps s with
  | nil => simp [distributeBlocks, blockShare_nil, addShares_nil]
  | cons b rest ih =>
    have hlt : s % ps.length < ps.length := Nat.mod_lt s hn
    unfold distributeBlocks
    rw [appendPatterns_ok ps _ hlt b]
    simp only [List.length_set]
    rw [nextIndex_mod _ s hn]
    have hlen : (ps.set (s % ps.length) { ps[s % ps.length] with
        RegexpStringList := ps[s % ps.length].RegexpStringList ++ b }).length = ps.length :=
      List.length_set _ _ _
    have := ih (ps.set (s % ps.length) { ps[s % ps.length] with
        RegexpStringList := ps[s % ps.length].RegexpStringList ++ b }) (s + 1)
        (by rw [hlen]; exact hn)
    rw [hlen] at this
    rw [this]
    congr 1
    refine Prod.ext ?_ ?_
    · apply List.ext_getElem?
      intro k
      simp only [getElem?_addShares, List.getElem?_set, blockShare_cons]
      by_cases hk : s % ps.length = k
      · subst hk
        simp [hlt, List.append_assoc]
      · simp [hk]
    · simp only [List.length_cons]
      congr 1
      omega

theorem distributeRegexps_blocks {Rx : Type} (ps : List (Palette Rx)) (j : Nat)
    (extras : List String) :
    distributeRegexps ps j extras = distributeBlocks ps j (extras.map (fun m => [m])) := by
  induction extras generalizing ps j with
  | nil => rfl
  | cons m rest ih =>
    simp only [distributeRegexps, distributeBlocks, List.map_cons]
    cases appendPatterns ps j [m] with
    | error f => rfl
    | ok ps' => exact ih ps' _

theorem distributeMatch_blocks {Rx : Type} (ps : List (Palette Rx)) (j : Nat)
    (groups : List MatchGroup) :
    distributeMatch ps j groups =
      distributeBlocks ps j (groups.map (fun m => m.RegexpStringList)) := by
  induction groups generalizing ps j with
  | nil => rfl
  | cons m rest ih =>
    simp only [distributeMatch, distributeBlocks, List.map_cons]
    cases appendPatterns ps j m.RegexpStringList with
    | error f => rfl
    | ok ps' => exact ih ps' _

theorem blockShare_extras (n k s : Nat) (extras : List String) :
    blockShare n k s (extras.map (fun m => [m])) = extraShare n k s extras := by
  induction extras generalizing s with
  | nil => simp [blockShare, extraShare]
  | cons m rest ih =>
    rw [List.map_cons, blockShare_cons, ih (s + 1)]
    unfold extraShare
    rw [List.enumFrom_cons]
    by_cases h : s % n = k
    · simp [List.filter_cons, h]
    · simp [List.filter_cons, h]

theorem blockShare_groups (n k s : Nat) (groups : List MatchGroup) :
    blockShare n k s (groups.map (fun m => m.RegexpStringList)) = groupShare n k s groups := by
  induction groups generalizing s with
  | nil => simp [blockShare, groupShare]
  | cons m rest ih =>
    rw [List.map_cons, blockShare_cons, ih (s + 1)]
    unfold groupShare
    rw [List.enumFrom_cons]
    by_cases h : s % n = k
    · simp [List.filter_cons, h]
    · simp [List.filter_cons, h]

/-- The loop of lines 48-54, started at `s mod n`. -/
theorem distributeRegexps_eq {Rx : Type} (ps : List (Palette Rx)) (s : Nat)
    (extras : List String) (hn : 0 < ps.length) :
    distributeRegexps ps (s % ps.length) extras =
      .ok (addShares ps (fun k => extraShare ps.length k s extras),
        (s + extras.length) % ps.length) := by
  rw [distributeRegexps_blocks, distributeBlocks_eq _ ps s hn]
  simp only [blockShare_extras, List.length_map]

/-- The loop of lines 56-62, started at `s mod n`. -/
theorem distributeMatch_eq {Rx : Type} (ps : List (Palette Rx)) (s : Nat)
    (groups : List MatchGroup) (hn : 0 < ps.length) :
    distributeMatch ps (s % ps.length) groups =
      .ok (addShares ps (fun k => groupShare ps.length k s groups),
        (s + groups.length) % ps.length) := by
  rw [distributeMatch_blocks, distributeBlocks_eq _ ps s hn]
  simp only [blockShare_groups, List.length_map]

/-- Both loops of lines 47-62. -/
theorem distribute_eq {Rx : Type} (ps : List (Palette Rx)) (extras : List String)
    (groups : List MatchGroup) (hn : 0 < ps.length) :
    distribute ps extras groups =
      .ok (addShares ps (fun k => extraShare ps.length k 0 extras ++
        groupShare ps.length k extras.length groups)) := by
  unfold distribute
  have h1 := distributeRegexps_eq ps 0 extras hn
  rw [Nat.zero_mod, Nat.zero_add] at h1
  rw [h1]
  simp only
  have hn' : 0 < (addShares ps (fun k => extraShare ps.length k 0 extras)).length := by
    rw [length_addShares]
    exact hn
  have h2 := distributeMatch_eq (addShares ps (fun k => extraShare ps.length k 0 extras))
    extras.length groups hn'
  rw [length_addShares] at h2
  rw [h2]
  simp only [addShares_addShares]

/-! ## Lemmas on compilation and on `NewConfig` -/

theorem compileList_ok {Rx : Type} (compile : String → Except String Rx) (rs : List String)
    (h : ∀ r ∈ rs, fails compile r = false) :
    ∃ xs, compileList compile rs = .ok xs ∧
      List.Forall₂ (fun r x => compile r = .ok x) rs xs := by
  induction rs with
  | nil => exact ⟨[], rfl, List.Forall₂.nil⟩
  | cons r rest ih =>
    obtain ⟨xs, hxs, hall⟩ := ih (fun r' hr' => h r' (List.mem_cons_of_mem _ hr'))
    have hr := h r (List.mem_cons_self _ _)
    unfold fails at hr
    cases hc : compile r with
    | error e => simp [hc] at hr
    | ok x =>
      refine ⟨x :: xs, ?_, List.Forall₂.cons hc hall⟩
      simp [compileList, hc, hxs]

theorem compileList_error {Rx : Type} (compile : String → Except String Rx) (rs : List String)
    (r : String) (h : rs.find? (fails compile) = some r) :
    ∃ e, compile r = .error e ∧ compileList compile rs = .error (wrapf e r) := by
  induction rs with
  | nil => simp at h
  | cons r' rest ih =>
    rw [List.find?_cons] at h
    cases hc : compile r' with
    | error e =>
      have hf : fails compile r' = true := by simp [fails, hc]
      rw [hf] at h
      cases h
      exact ⟨e, hc, by simp [compileList, hc]⟩
    | ok x =>
      have hf : fails compile r' = false := by simp [fails, hc]
      rw [hf] at h
      obtain ⟨e, he, hl⟩ := ih h
      exact ⟨e, he, by simp [compileList, hc, hl]⟩

theorem allPatterns_cons {Rx : Type} (p : Palette Rx) (rest : List (Palette Rx)) :
    allPatterns (p :: rest) = p.RegexpStringList ++ allPatterns rest := by
  simp [allPatterns]

theorem compileRegexps_ok {Rx : Type} (compile : String → Except String Rx)
    (ps : List (Palette Rx)) (h : ∀ r ∈ allPatterns ps, fails compile r = false) :
    ∃ ps', compileRegexps compile ps = .ok ps' ∧
      List.Forall₂ (SlotCompiled compile) ps ps' := by
  induction ps with
  | nil => exact ⟨[], rfl, List.Forall₂.nil⟩
  | cons p rest ih =>
    rw [allPatterns_cons] at h
    obtain ⟨xs, hxs, hall⟩ := compileList_ok compile p.RegexpStringList
      (fun r hr => h r (List.mem_append_left _ hr))
    obtain ⟨ps', hps, hrest⟩ := ih (fun r hr => h r (List.mem_append_right _ hr))
    refine ⟨{ p with RegexpList := xs } :: ps', ?_, List.Forall₂.cons ⟨rfl, rfl, rfl, hall⟩ hrest⟩
    simp [compileRegexps, hxs, hps]

theorem compileRegexps_error {Rx : Type} (compile : String → Except String Rx)
    (ps : List (Palette Rx)) (r : String)
    (h : (allPatterns ps).find? (fails compile) = some r) :
    ∃ e, compile r = .error e ∧ compileRegexps compile ps = .error (wrapf e r) := by
  induction ps with
  | nil => simp [allPatterns] at h
  | cons p rest ih =>
    rw [allPatterns_cons, List.find?_append] at h
    cases hf : p.RegexpStringList.find? (fails compile) with
    | some r' =>
      rw [hf] at h
      simp only [Option.or_some] at h
      cases h
      obtain ⟨e, he, hl⟩ := compileList_error compile p.RegexpStringList r hf
      exact ⟨e, he, by simp [compileRegexps, hl]⟩
    | none =>
      rw [hf] at h
      simp only [Option.none_or] at h
      obtain ⟨e, he, hl⟩ := ih h
      have hnone : ∀ r' ∈ p.RegexpStringList, fails compile r' = false := by
        intro r' hr'
        have := List.find?_eq_none.1 hf r' hr'
        simpa using this
      obtain ⟨xs, hxs, _⟩ := compileList_ok compile p.RegexpStringList hnone
      exact ⟨e, he, by simp [compileRegexps, hxs, hl]⟩

theorem forall₂_getElem? {α β : Type} {R : α → β → Prop} {l : List α} {l' : List β}
    (h : List.Forall₂ R l l') {k : Nat} {a : α} (ha : l[k]? = some a) :
    ∃ b, l'[k]? = some b ∧ R a b := by
  induction h generalizing k with
  | nil => simp at ha
  | cons hab _ ih =>
    cases k with
    | zero =>
      simp only [List.getElem?_cons_zero, Option.some.injEq] at ha
      subst ha
      exact ⟨_, by simp, hab⟩
    | succ k' =>
      simp only [List.getElem?_cons_succ] at ha
      obtain ⟨b, hb, hr⟩ := ih ha
      exact ⟨b, by simpa using hb, hr⟩

theorem ensurePalette_pos {Rx : Type} (c : Config Rx) : 0 < (ensurePalette c).Palette.length := by
  unfold ensurePalette
  by_cases h : c.Palette.length = 0
  · simp [h, setDefaultPaletteColors, defaultColors]
  · simp only [h, if_false]
    omega

theorem ensurePalette_match {Rx : Type} (c : Config Rx) : (ensurePalette c).Match = c.Match := by
  unfold ensurePalette
  by_cases h : c.Palette.length = 0
  · simp [h, setDefaultPaletteColors]
  · simp [h]

/-- `NewConfig` once the load phase has returned no error: the distribution
does not panic, and the outcome is that of the compilation. -/
theorem NewConfig_after_load {Rx : Type} (sys : Sys Rx) (path : String) (extras : List String)
    (c1 : Config Rx) (h : loadConfig sys path = (c1, none)) :
    NewConfig sys path extras =
      match compileRegexps sys.compile
          (addShares (ensurePalette c1).Palette
            (fun k => extraShare (ensurePalette c1).Palette.length k 0 extras ++
              groupShare (ensurePalette c1).Palette.length k extras.length
                (ensurePalette c1).Match)) with
      | .error msg => .ok (none, some msg)
      | .ok ps' => .ok (some { ensurePalette c1 with Palette := ps' }, none) := by
  unfold NewConfig
  rw [h]
  simp only
  rw [distribute_eq _ _ _ (ensurePalette_pos c1)]
  rfl

theorem extraShare_sublist (n k s : Nat) (extras : List String) :
    (extraShare n k s extras).Sublist extras := by
  unfold extraShare
  have h1 : ((extras.enumFrom s).filter (fun e => e.1 % n = k)).Sublist (extras.enumFrom s) :=
    List.filter_sublist _
  have h2 := h1.map Prod.snd
  rwa [List.enumFrom_map_snd] at h2

theorem mem_extraShare (n s i : Nat) (extras : List String) (x : String)
    (h : extras[i]? = some x) : x ∈ extraShare n ((s + i) % n) s extras := by
  unfold extraShare
  simp only [List.mem_map, List.mem_filter, decide_eq_true_eq]
  refine ⟨(s + i, x), ⟨?_, rfl⟩, rfl⟩
  rw [List.mem_iff_getElem?]
  exact ⟨i, by rw [List.getElem?_enumFrom, h]; rfl⟩

theorem compileRegexps_forall₂ {Rx : Type} (compile : String → Except String Rx)
    (ps ps' : List (Palette Rx)) (h : compileRegexps compile ps = .ok ps') :
    (∀ r ∈ allPatterns ps, fails compile r = false) ∧
      List.Forall₂ (SlotCompiled compile) ps ps' := by
  cases hf : (allPatterns ps).find? (fails compile) with
  | some r =>
    obtain ⟨e, _, he⟩ := compileRegexps_error compile ps r hf
    rw [he] at h
    cases h
  | none =>
    have hnone : ∀ r ∈ allPatterns ps, fails compile r = false := by
      intro r hr
      have := List.find?_eq_none.1 hf r hr
      simpa using this
    obtain ⟨ps'', hps, hall⟩ := compileRegexps_ok compile ps hnone
    rw [hps] at h
    cases h
    exact ⟨hnone, hall⟩

/-- A configuration returned by `NewConfig`: the slots after the distribution,
compiled. -/
theorem NewConfig_success {Rx : Type} (sys : Sys Rx) (path : String) (extras : List String)
    (c1 c : Config Rx) (h : loadConfig sys path = (c1, none))
    (hc : NewConfig sys path extras = .ok (some c, none)) :
    c.Match = c1.Match ∧
    List.Forall₂ (SlotCompiled sys.compile)
      (addShares (ensurePalette c1).Palette
        (fun k => extraShare (ensurePalette c1).Palette.length k 0 extras ++
          groupShare (ensurePalette c1).Palette.length k extras.length c1.Match))
      c.Palette := by
  rw [NewConfig_after_load sys path extras c1 h, ensurePalette_match] at hc
  split at hc
  · cases hc
  · rename_i ps' hps
    cases hc
    exact ⟨ensurePalette_match c1, (compileRegexps_forall₂ _ _ _ hps).2⟩

/-! ## The claims on `NewConfig` -/

/-- C8, round-robin distribution of the extra patterns. For every palette of
`N ≥ 1` slots and every list of `M` extra patterns, the loop of lines 48-54
does not panic, leaves the cursor at `M mod N`, keeps the slots and their
colours, and appends to the pattern strings of slot `k` the extra patterns
`i` with `i mod N = k`, in the order supplied (pattern `i` is among those of
slot `i mod N`, and what a slot receives is a sublist of the extras); a
configuration returned by `NewConfig` has in slot `k` the patterns the slot
had, then these extra patterns, then what the match groups add. -/
theorem NewConfig_extra_round_robin {Rx : Type} (ps : List (Palette Rx))
    (extras : List String) (hn : 1 ≤ ps.length) :
    (∃ ps', distributeRegexps ps 0 extras = .ok (ps', extras.length % ps.length) ∧
      ps'.length = ps.length ∧
      ∀ k p, ps[k]? = some p → ∃ p', ps'[k]? = some p' ∧
        p'.RegexpStringList = p.RegexpStringList ++ extraShare ps.length k 0 extras ∧
        p'.Fg = p.Fg ∧ p'.Bg = p.Bg ∧ p'.RegexpList = p.RegexpList) ∧
    (∀ i x, extras[i]? = some x → x ∈ extraShare ps.length (i % ps.length) 0 extras) ∧
    (∀ k, (extraShare ps.length k 0 extras).Sublist extras) ∧
    (∀ (sys : Sys Rx) (path : String) (c1 c : Config Rx),
      loadConfig sys path = (c1, none) → (ensurePalette c1).Palette = ps →
      NewConfig sys path extras = .ok (some c, none) →
      ∀ k p, ps[k]? = some p → ∃ p' tail, c.Palette[k]? = some p' ∧
        p'.RegexpStringList =
          p.RegexpStringList ++ extraShare ps.length k 0 extras ++ tail) := by
  refine ⟨?_, ?_, fun k => extraShare_sublist _ _ _ _, ?_⟩
  · refine ⟨addShares ps (fun k => extraShare ps.length k 0 extras), ?_, length_addShares _ _, ?_⟩
    · have := distributeRegexps_eq ps 0 extras hn
      rwa [Nat.zero_mod, Nat.zero_add] at this
    · intro k p hp
      have hk : (addShares ps (fun k => extraShare ps.length k 0 extras))[k]? =
          some (Palette.mk p.Fg p.Bg (p.RegexpStringList ++ extraShare ps.length k 0 extras)
            p.RegexpList) := by
        rw [getElem?_addShares, hp]
        rfl
      exact ⟨_, hk, rfl, rfl, rfl, rfl⟩
  · intro i x hx
    have := mem_extraShare ps.length 0 i extras x hx
    rwa [Nat.zero_add] at this
  · intro sys path c1 c hload hps hc k p hp
    obtain ⟨_, hall⟩ := NewConfig_success sys path extras c1 c hload hc
    rw [hps] at hall
    have hk : (addShares ps (fun k => extraShare ps.length k 0 extras ++
        groupShare ps.length k extras.length c1.Match))[k]? =
        some (Palette.mk p.Fg p.Bg (p.RegexpStringList ++ (extraShare ps.length k 0 extras ++
          groupShare ps.length k extras.length c1.Match)) p.RegexpList) := by
      rw [getElem?_addShares, hp]
      rfl
    obtain ⟨p', hp', _, _, hrs, _⟩ := forall₂_getElem? hall hk
    refine ⟨p', groupShare ps.length k extras.length c1.Match, hp', ?_⟩
    rw [hrs, List.append_assoc]

/-- C8 with two slots and five extra patterns: `x0`, `x2`, `x4` go to slot 0
after its own pattern, `x1`, `x3` to slot 1, and the cursor ends at 1. -/
theorem NewConfig_extra_round_robin_witness :
    1 ≤ twoSlots.length ∧
    (∃ ps', distributeRegexps twoSlots 0 ["x0", "x1", "x2", "x3", "x4"] = .ok (ps', 5 % 2) ∧
      ps'.length = 2 ∧
      ∀ k p, twoSlots[k]? = some p → ∃ p', ps'[k]? = some p' ∧
        p'.RegexpStringList =
          p.RegexpStringList ++ extraShare 2 k 0 ["x0", "x1", "x2", "x3", "x4"] ∧
        p'.Fg = p.Fg ∧ p'.Bg = p.Bg ∧ p'.RegexpList = p.RegexpList) ∧
    extraShare 2 0 0 ["x0", "x1", "x2", "x3", "x4"] = ["x0", "x2", "x4"] ∧
    extraShare 2 1 0 ["x0", "x1", "x2", "x3", "x4"] = ["x1", "x3"] ∧
    (distributeRegexps twoSlots 0 ["x0", "x1", "x2", "x3", "x4"]).toOption.map
        (fun r => (r.1.map (fun p => p.RegexpStringList), r.2)) =
      some ([["own", "x0", "x2", "x4"], ["x1", "x3"]], 1) :=
  have hn : 1 ≤ twoSlots.length := by decide
  ⟨hn, (NewConfig_extra_round_robin twoSlots ["x0", "x1", "x2", "x3", "x4"] hn).1,
    by decide, by decide, by decide⟩

theorem groupShare_cons (n k s : Nat) (g : MatchGroup) (rest : List MatchGroup) :
    groupShare n k s (g :: rest) =
      (if s % n = k then g.RegexpStringList else []) ++ groupShare n k (s + 1) rest := by
  rw [← blockShare_groups, List.map_cons, blockShare_cons, blockShare_groups]

/-- The patterns of group `j` stand as one block in the share of slot
`(start + j) mod n`. -/
theorem groupShare_block (n s j : Nat) (groups : List MatchGroup) (g : MatchGroup)
    (h : groups[j]? = some g) :
    ∃ before after,
      groupShare n ((s + j) % n) s groups = before ++ g.RegexpStringList ++ after := by
  induction groups generalizing s j with
  | nil => simp at h
  | cons g0 rest ih =>
    rw [groupShare_cons]
    cases j with
    | zero =>
      simp only [List.getElem?_cons_zero, Option.some.injEq] at h
      subst h
      refine ⟨[], groupShare n (s % n) (s + 1) rest, ?_⟩
      simp
    | succ j' =>
      simp only [List.getElem?_cons_succ] at h
      obtain ⟨before, after, hb⟩ := ih (s + 1) j' h
      have : s + (j' + 1) = s + 1 + j' := by omega
      rw [this, hb]
      refine ⟨(if s % n = (s + 1 + j') % n then g0.RegexpStringList else []) ++ before,
        after, ?_⟩
      simp [List.append_assoc]

/-- C9, the shared cursor. For every palette of `N ≥ 1` slots, `M` extra
patterns and `G` match groups: the first loop leaves the cursor at `M mod N`,
the second loop starts there, does not panic and ends at `(M + G) mod N`, one
step per group whatever its size; it appends to slot `k` the patterns of the
groups `j` with `(M + j) mod N = k`, each group as one block in its order, so
that slot `k` holds its own patterns, then its extra patterns, then these
blocks; and so does a configuration returned by `NewConfig`. -/
theorem NewConfig_match_group_cursor {Rx : Type} (ps : List (Palette Rx))
    (extras : List String) (groups : List MatchGroup) (hn : 1 ≤ ps.length) :
    (∃ ps1 ps2,
      distributeRegexps ps 0 extras = .ok (ps1, extras.length % ps.length) ∧
      distributeMatch ps1 (extras.length % ps.length) groups =
        .ok (ps2, (extras.length + groups.length) % ps.length) ∧
      distribute ps extras groups = .ok ps2 ∧
      ps2.length = ps.length ∧
      (∀ k p1, ps1[k]? = some p1 → ∃ p2, ps2[k]? = some p2 ∧
        p2.RegexpStringList =
          p1.RegexpStringList ++ groupShare ps.length k extras.length groups ∧
        p2.Fg = p1.Fg ∧ p2.Bg = p1.Bg ∧ p2.RegexpList = p1.RegexpList) ∧
      (∀ k p, ps[k]? = some p → ∃ p2, ps2[k]? = some p2 ∧
        p2.RegexpStringList = p.RegexpStringList ++ extraShare ps.length k 0 extras ++
          groupShare ps.length k extras.length groups)) ∧
    (∀ j g, groups[j]? = some g → ∃ before after,
      groupShare ps.length ((extras.length + j) % ps.length) extras.length groups =
        before ++ g.RegexpStringList ++ after) ∧
    (∀ (sys : Sys Rx) (path : String) (c1 c : Config Rx),
      loadConfig sys path = (c1, none) → (ensurePalette c1).Palette = ps →
      c1.Match = groups → NewConfig sys path extras = .ok (some c, none) →
      ∀ k p, ps[k]? = some p → ∃ p', c.Palette[k]? = some p' ∧
        p'.RegexpStringList = p.RegexpStringList ++ extraShare ps.length k 0 extras ++
          groupShare ps.length k extras.length groups) := by
  have h1 := distributeRegexps_eq ps 0 extras hn
  rw [Nat.zero_mod, Nat.zero_add] at h1
  have hn' : 0 < (addShares ps (fun k => extraShare ps.length k 0 extras)).length := by
    rw [length_addShares]
    exact hn
  have h2 := distributeMatch_eq (addShares ps (fun k => extraShare ps.length k 0 extras))
    extras.length groups hn'
  rw [length_addShares] at h2
  refine ⟨⟨_, _, h1, h2, ?_, ?_, ?_, ?_⟩, fun j g hg => groupShare_block _ _ j groups g hg, ?_⟩
  · rw [distribute_eq ps extras groups hn, addShares_addShares]
  · rw [length_addShares, length_addShares]
  · intro k p1 hp1
    have hk : (addShares (addShares ps (fun k => extraShare ps.length k 0 extras))
        (fun k => groupShare ps.length k extras.length groups))[k]? =
        some (Palette.mk p1.Fg p1.Bg
          (p1.RegexpStringList ++ groupShare ps.length k extras.length groups)
          p1.RegexpList) := by
      rw [getElem?_addShares, hp1]
      rfl
    exact ⟨_, hk, rfl, rfl, rfl, rfl⟩
  · intro k p hp
    have hk : (addShares (addShares ps (fun k => extraShare ps.length k 0 extras))
        (fun k => groupShare ps.length k extras.length groups))[k]? =
        some (Palette.mk p.Fg p.Bg
          (p.RegexpStringList ++ extraShare ps.length k 0 extras ++
            groupShare ps.length k extras.length groups) p.RegexpList) := by
      rw [getElem?_addShares, getElem?_addShares, hp]
      rfl
    exact ⟨_, hk, rfl⟩
  · intro sys path c1 c hload hps hgroups hc k p hp
    obtain ⟨_, hall⟩ := NewConfig_success sys path extras c1 c hload hc
    rw [hps, hgroups] at hall
    have hk : (addShares ps (fun k => extraShare ps.length k 0 extras ++
        groupShare ps.length k extras.length groups))[k]? =
        some (Palette.mk p.Fg p.Bg (p.RegexpStringList ++ (extraShare ps.length k 0 extras ++
          groupShare ps.length k extras.length groups)) p.RegexpList) := by
      rw [getElem?_addShares, hp]
      rfl
    obtain ⟨p', hp', _, _, hrs, _⟩ := forall₂_getElem? hall hk
    refine ⟨p', hp', ?_⟩
    rw [hrs, List.append_assoc]

/-- C9 with two slots, five extra patterns and three match groups: the cursor
is at 1 after the extras, so group 0 goes to slot 1, the empty group 1 to
slot 0 and group 2 to slot 1 again. -/
theorem NewConfig_match_group_cursor_witness :
    1 ≤ twoSlots.length ∧
    (∀ j g, threeGroups[j]? = some g → ∃ before after,
      groupShare 2 ((5 + j) % 2) 5 threeGroups = before ++ g.RegexpStringList ++ after) ∧
    groupShare 2 0 5 threeGroups = [] ∧
    groupShare 2 1 5 threeGroups = ["g0a", "g0b", "g2"] ∧
    (distribute twoSlots ["x0", "x1", "x2", "x3", "x4"] threeGroups).toOption.map
        (fun r => r.map (fun p => p.RegexpStringList)) =
      some [["own", "x0", "x2", "x4"], ["x1", "x3", "g0a", "g0b", "g2"]] :=
  have hn : 1 ≤ twoSlots.length := by decide
  ⟨hn,
    (NewConfig_match_group_cursor twoSlots ["x0", "x1", "x2", "x3", "x4"] threeGroups hn).2.1,
    by decide, by decide, by decide⟩

/-- C10 as stated fails: when the configuration file exists and does not
decode, `NewConfig` returns an error although no pattern string fails to
compile: no extra pattern is given, and the slots, the default ones, hold no
pattern at all. -/
theorem NewConfig_error_without_pattern :
    NewConfig tableSys "bad.yml" [] = .ok (none, some "yaml: unmarshal errors") ∧
    ∃ ps, distribute (ensurePalette (loadConfig tableSys "bad.yml").1).Palette []
        (ensurePalette (loadConfig tableSys "bad.yml").1).Match = .ok ps ∧
      allPatterns ps = [] ∧
      ¬ ((∃ cfg err, NewConfig tableSys "bad.yml" [] = .ok (cfg, some err)) ↔
        ∃ r ∈ allPatterns ps, fails tableSys.compile r = true) := by
  refine ⟨rfl, (ensurePalette (⟨[], []⟩ : Config String)).Palette, rfl, rfl, ?_⟩
  intro h
  obtain ⟨r, hr, _⟩ := h.1 ⟨none, "yaml: unmarshal errors", rfl⟩
  have he : allPatterns (ensurePalette (⟨[], []⟩ : Config String)).Palette = [] := rfl
  rw [he] at hr
  simp at hr

/-- C10 as amended. When the load phase returns no error (the file is skipped
or decodes), the distribution yields the slots `ps` and: `NewConfig` returns an
error exactly when a pattern string of `ps` fails to compile; then it returns
no configuration and the message `WROING REGEXP '<r>': <cause>` for the first
such pattern `r`, in slot order and then in pattern order; when every pattern
compiles it returns a configuration whose slots keep colours and pattern
strings and whose compiled lists match the pattern strings one by one. -/
theorem NewConfig_invalid_pattern {Rx : Type} (sys : Sys Rx) (path : String)
    (extras : List String) (c1 : Config Rx) (hload : loadConfig sys path = (c1, none)) :
    ∃ ps, distribute (ensurePalette c1).Palette extras (ensurePalette c1).Match = .ok ps ∧
      ((∃ cfg err, NewConfig sys path extras = .ok (cfg, some err)) ↔
        ∃ r ∈ allPatterns ps, fails sys.compile r = true) ∧
      (∀ r, (allPatterns ps).find? (fails sys.compile) = some r →
        ∃ e, sys.compile r = .error e ∧
          NewConfig sys path extras =
            .ok (none, some ("WROING REGEXP '" ++ r ++ "': " ++ e))) ∧
      ((∀ r ∈ allPatterns ps, fails sys.compile r = false) →
        ∃ c, NewConfig sys path extras = .ok (some c, none) ∧
          List.Forall₂ (SlotCompiled sys.compile) ps c.Palette ∧
          ∀ p ∈ c.Palette, p.RegexpList.length = p.RegexpStringList.length ∧
            List.Forall₂ (fun r x => sys.compile r = .ok x) p.RegexpStringList
              p.RegexpList) := by
  have hN := NewConfig_after_load sys path extras c1 hload
  refine ⟨_, distribute_eq _ _ _ (ensurePalette_pos c1), ?_, ?_, ?_⟩
  · constructor
    · rintro ⟨cfg, err, hc⟩
      cases hf : (allPatterns (addShares (ensurePalette c1).Palette
        (fun k => extraShare (ensurePalette c1).Palette.length k 0 extras ++
          groupShare (ensurePalette c1).Palette.length k extras.length
            (ensurePalette c1).Match))).find? (fails sys.compile) with
      | some r => exact ⟨r, List.mem_of_find?_eq_some hf, List.find?_some hf⟩
      | none =>
        have hnone : ∀ r ∈ allPatterns (addShares (ensurePalette c1).Palette
            (fun k => extraShare (ensurePalette c1).Palette.length k 0 extras ++
              groupShare (ensurePalette c1).Palette.length k extras.length
                (ensurePalette c1).Match)), fails sys.compile r = false := by
          intro r hr
          have := List.find?_eq_none.1 hf r hr
          simpa using this
        obtain ⟨ps', hps, _⟩ := compileRegexps_ok sys.compile _ hnone
        rw [hN, hps] at hc
        cases hc
    · rintro ⟨r, hr, hfail⟩
      cases hf : (allPatterns (addShares (ensurePalette c1).Palette
        (fun k => extraShare (ensurePalette c1).Palette.length k 0 extras ++
          groupShare (ensurePalette c1).Palette.length k extras.length
            (ensurePalette c1).Match))).find? (fails sys.compile) with
      | some r' =>
        obtain ⟨e, _, he⟩ := compileRegexps_error sys.compile _ r' hf
        exact ⟨none, wrapf e r', by rw [hN, he]⟩
      | none =>
        have := List.find?_eq_none.1 hf r hr
        rw [hfail] at this
        simp at this
  · intro r hr
    obtain ⟨e, he, hce⟩ := compileRegexps_error sys.compile _ r hr
    exact ⟨e, he, by rw [hN, hce]; rfl⟩
  · intro hall
    obtain ⟨ps', hps, hf2⟩ := compileRegexps_ok sys.compile _ hall
    refine ⟨{ ensurePalette c1 with Palette := ps' }, by rw [hN, hps], hf2, ?_⟩
    intro p hp
    obtain ⟨k, hk⟩ := List.mem_iff_getElem?.1 hp
    obtain ⟨p0, _, _, _, hrs, hcomp⟩ := forall₂_getElem? hf2.flip hk
    rw [← hrs] at hcomp
    exact ⟨hcomp.length_eq.symm, hcomp⟩

/-- C10 as amended, with the file `cfg.yml` (two slots, three groups) and the
extra patterns `x0`, `(`, `[`: slot 0 gets `x0` and `[`, slot 1 gets `(`, and
the error names `[`, the first failing pattern in slot order. -/
theorem NewConfig_invalid_pattern_witness :
    loadConfig tableSys "cfg.yml" = (⟨twoSlots, threeGroups⟩, none) ∧
    (∃ cfg err, NewConfig tableSys "cfg.yml" ["x0", "(", "["] = .ok (cfg, some err)) ∧
    NewConfig tableSys "cfg.yml" ["x0", "(", "["] =
      .ok (none, some "WROING REGEXP '[': missing closing ]") :=
  have hload : loadConfig tableSys "cfg.yml" = (⟨twoSlots, threeGroups⟩, none) := rfl
  have h := NewConfig_invalid_pattern tableSys "cfg.yml" ["x0", "(", "["] _ hload
  ⟨hload, by
    obtain ⟨ps, hps, hiff, _⟩ := h
    have hd : distribute (ensurePalette (⟨twoSlots, threeGroups⟩ : Config String)).Palette
        ["x0", "(", "["] (ensurePalette (⟨twoSlots, threeGroups⟩ : Config String)).Match =
        .ok [⟨"", "#111111", ["own", "x0", "["], []⟩,
          ⟨"#222222", "", ["(", "g0a", "g0b", "g2"], []⟩] := rfl
    rw [hd] at hps
    cases hps
    exact hiff.2 ⟨"[", by decide, by decide⟩, rfl⟩

/-! ## More lemmas on `NewConfig` -/

theorem compileRegexps_blank {Rx : Type} (compile : String → Except String Rx)
    (colours : List String) :
    compileRegexps compile (colours.map (fun v => (⟨"", v, [], []⟩ : Palette Rx))) =
      .ok (colours.map (fun v => ⟨"", v, [], []⟩)) := by
  induction colours with
  | nil => rfl
  | cons v rest ih => simp [compileRegexps, compileList, ih]

theorem extraShare_nil (n k s : Nat) : extraShare n k s [] = [] := by
  simp [extraShare]

theorem groupShare_nil (n k s : Nat) : groupShare n k s [] = [] := by
  simp [groupShare]

theorem ensurePalette_empty {Rx : Type} :
    ensurePalette (⟨[], []⟩ : Config Rx) = ⟨defaultPalette Rx, []⟩ := by
  simp [ensurePalette, setDefaultPaletteColors, defaultPalette]

/-- When `os.Stat` fails the load phase skips the file. -/
theorem loadConfig_stat_failed {Rx : Type} (sys : Sys Rx) (path msg : String)
    (h : sys.stat path = .failed msg) : loadConfig sys path = (⟨[], []⟩, none) := by
  simp [loadConfig, validateConfigPath, h, withStack]

/-- `NewConfig` returns an error exactly when a pattern of the slots fails to
compile, once the load phase has returned no error. -/
theorem NewConfig_error_iff {Rx : Type} (sys : Sys Rx) (path : String) (extras : List String)
    (c1 : Config Rx) (hload : loadConfig sys path = (c1, none)) :
    (∃ cfg err, NewConfig sys path extras = .ok (cfg, some err)) ↔
      ∃ r ∈ allPatterns (addShares (ensurePalette c1).Palette
        (fun k => extraShare (ensurePalette c1).Palette.length k 0 extras ++
          groupShare (ensurePalette c1).Palette.length k extras.length
            (ensurePalette c1).Match)), fails sys.compile r = true := by
  have hN := NewConfig_after_load sys path extras c1 hload
  constructor
  · rintro ⟨cfg, err, hc⟩
    cases hf : (allPatterns (addShares (ensurePalette c1).Palette
      (fun k => extraShare (ensurePalette c1).Palette.length k 0 extras ++
        groupShare (ensurePalette c1).Palette.length k extras.length
          (ensurePalette c1).Match))).find? (fails sys.compile) with
    | some r => exact ⟨r, List.mem_of_find?_eq_some hf, List.find?_some hf⟩
    | none =>
      have hnone : ∀ r ∈ allPatterns (addShares (ensurePalette c1).Palette
          (fun k => extraShare (ensurePalette c1).Palette.length k 0 extras ++
            groupShare (ensurePalette c1).Palette.length k extras.length
              (ensurePalette c1).Match)), fails sys.compile r = false := by
        intro r hr
        have := List.find?_eq_none.1 hf r hr
        simpa using this
      obtain ⟨ps', hps, _⟩ := compileRegexps_ok sys.compile _ hnone
      rw [hN, hps] at hc
      cases hc
  · rintro ⟨r, hr, hfail⟩
    cases hf : (allPatterns (addShares (ensurePalette c1).Palette
      (fun k => extraShare (ensurePalette c1).Palette.length k 0 extras ++
        groupShare (ensurePalette c1).Palette.length k extras.length
          (ensurePalette c1).Match))).find? (fails sys.compile) with
    | some r' =>
      obtain ⟨e, _, he⟩ := compileRegexps_error sys.compile _ r' hf
      exact ⟨none, wrapf e r', by rw [hN, he]⟩
    | none =>
      have := List.find?_eq_none.1 hf r hr
      rw [hfail] at this
      simp at this

/-- `NewConfig` returns a configuration when every pattern of the slots
compiles, once the load phase has returned no error. -/
theorem NewConfig_ok_of {Rx : Type} (sys : Sys Rx) (path : String) (extras : List String)
    (c1 : Config Rx) (hload : loadConfig sys path = (c1, none))
    (hall : ∀ r ∈ allPatterns (addShares (ensurePalette c1).Palette
      (fun k => extraShare (ensurePalette c1).Palette.length k 0 extras ++
        groupShare (ensurePalette c1).Palette.length k extras.length
          (ensurePalette c1).Match)), fails sys.compile r = false) :
    ∃ c, NewConfig sys path extras = .ok (some c, none) ∧ c.Match = c1.Match ∧
      List.Forall₂ (SlotCompiled sys.compile)
        (addShares (ensurePalette c1).Palette
          (fun k => extraShare (ensurePalette c1).Palette.length k 0 extras ++
            groupShare (ensurePalette c1).Palette.length k extras.length
              (ensurePalette c1).Match)) c.Palette := by
  have hN := NewConfig_after_load sys path extras c1 hload
  obtain ⟨ps', hps, hf2⟩ := compileRegexps_ok sys.compile _ hall
  exact ⟨{ ensurePalette c1 with Palette := ps' }, by rw [hN, hps],
    ensurePalette_match c1, hf2⟩

theorem mem_allPatterns {Rx : Type} (ps : List (Palette Rx)) (r : String) :
    r ∈ allPatterns ps ↔ ∃ (k : Nat) (p : Palette Rx), ps[k]? = some p ∧ r ∈ p.RegexpStringList := by
  unfold allPatterns
  simp only [List.mem_flatMap]
  constructor
  · rintro ⟨p, hp, hr⟩
    obtain ⟨k, hk⟩ := List.mem_iff_getElem?.1 hp
    exact ⟨k, p, hk, hr⟩
  · rintro ⟨k, p, hk, hr⟩
    exact ⟨p, List.getElem?_mem hk, hr⟩

theorem mem_allPatterns_addShares {Rx : Type} (ps : List (Palette Rx))
    (share : Nat → List String) (r : String) :
    r ∈ allPatterns (addShares ps share) ↔
      ∃ (k : Nat) (p : Palette Rx), ps[k]? = some p ∧
        (r ∈ p.RegexpStringList ∨ r ∈ share k) := by
  rw [mem_allPatterns]
  constructor
  · rintro ⟨k, p', hk, hr⟩
    rw [getElem?_addShares] at hk
    cases hp : ps[k]? with
    | none => rw [hp] at hk; cases hk
    | some p =>
      rw [hp] at hk
      simp only [Option.map_some', Option.some.injEq] at hk
      subst hk
      exact ⟨k, p, hp, List.mem_append.1 hr⟩
  · rintro ⟨k, p, hk, hr⟩
    refine ⟨k, Palette.mk p.Fg p.Bg (p.RegexpStringList ++ share k) p.RegexpList, ?_, ?_⟩
    · rw [getElem?_addShares, hk]
      rfl
    · exact List.mem_append.2 hr

/-! ## The claims on the palette and the configuration source -/

/-- C11, default palette. When the load phase returns no error and leaves no
slot and no match group (the source is skipped because `os.Stat` fails, or it
decodes to nothing), and there is no extra pattern, `NewConfig` succeeds with
the 22 slots of the default colour list, in its order, from `#089400` to
`#87BAAB`; every slot has its colour as background, an empty foreground and no
pattern. -/
theorem NewConfig_default_palette {Rx : Type} (sys : Sys Rx) (path : String) (c1 : Config Rx)
    (hload : loadConfig sys path = (c1, none)) (hp : c1.Palette.length = 0)
    (hm : c1.Match = []) :
    NewConfig sys path [] = .ok (some ⟨defaultPalette Rx, []⟩, none) ∧
    (defaultPalette Rx).length = 22 ∧
    (defaultPalette Rx).map (fun p => p.Bg) = defaultColors ∧
    (∀ p ∈ defaultPalette Rx, p.Fg = "" ∧ p.RegexpStringList = [] ∧ p.RegexpList = []) ∧
    defaultColors.head? = some "#089400" ∧
    defaultColors.getLast? = some "#87BAAB" ∧
    (∀ msg, sys.stat path = .failed msg → loadConfig sys path = (⟨[], []⟩, none)) := by
  refine ⟨?_, by simp [defaultPalette, defaultColors],
    by simp [defaultPalette, Function.comp_def], ?_, rfl,
    by simp [defaultColors], fun msg h => loadConfig_stat_failed sys path msg h⟩
  · obtain ⟨ps, ms⟩ := c1
    simp only [List.length_eq_zero] at hp
    simp only at hm
    subst hp
    subst hm
    rw [NewConfig_after_load sys path [] _ hload, ensurePalette_empty]
    simp only [extraShare_nil, groupShare_nil, List.append_nil, addShares_nil]
    unfold defaultPalette
    rw [compileRegexps_blank]
  · intro p hp'
    simp only [defaultPalette, List.mem_map] at hp'
    obtain ⟨v, _, rfl⟩ := hp'
    exact ⟨rfl, rfl, rfl⟩

/-- C11 with a path that does not exist and no extra pattern. -/
theorem NewConfig_default_palette_witness :
    loadConfig tableSys "none.yml" = (⟨[], []⟩, none) ∧
    ((⟨[], []⟩ : Config String)).Palette.length = 0 ∧
    ((⟨[], []⟩ : Config String)).Match = [] ∧
    NewConfig tableSys "none.yml" [] = .ok (some ⟨defaultPalette String, []⟩, none) ∧
    (defaultPalette String).length = 22 :=
  have hload : loadConfig tableSys "none.yml" = (⟨[], []⟩, none) := rfl
  have h := NewConfig_default_palette tableSys "none.yml" ⟨[], []⟩ hload rfl rfl
  ⟨hload, rfl, rfl, h.1, h.2.1⟩

/-- C12 fails on the code: for a path that exists and is a directory
`validateConfigPath` returns `errors.WithStack(err)` with the nil `err` of the
successful `os.Stat`, that is nil, so `NewConfig` goes on to `fromFile` on the
directory (here the decoding fails and its error is what is returned). -/
theorem validateConfigPath_directory :
    (∀ (sys : Sys String) (path : String), sys.stat path = .found true →
      validateConfigPath sys path = none ∧ loadConfig sys path = fromFile sys ⟨[], []⟩ path) ∧
    dirSys.stat "confdir" = .found true ∧
    validateConfigPath dirSys "confdir" = none ∧
    NewConfig dirSys "confdir" [] =
      .ok (none, some "yaml: input error: read confdir: is a directory") := by
  refine ⟨?_, rfl, rfl, rfl⟩
  intro sys path h
  simp [loadConfig, validateConfigPath, h, withStack]

/-- C13, a missing source is not an error. When `os.Stat` fails on the path,
`NewConfig` does not depend on what opening and decoding the path would give,
it distributes the extra patterns over the 22 default slots, it returns an
error exactly when an extra pattern fails to compile, and when they all
compile it returns a configuration with the 22 default slots. -/
theorem NewConfig_missing_source {Rx : Type} (sys : Sys Rx) (path msg : String)
    (extras : List String) (hstat : sys.stat path = .failed msg) :
    (∀ d, NewConfig { sys with decode := d } path extras = NewConfig sys path extras) ∧
    loadConfig sys path = (⟨[], []⟩, none) ∧
    (ensurePalette (loadConfig sys path).1).Palette = defaultPalette Rx ∧
    (∃ ps, distribute (defaultPalette Rx) extras [] = .ok ps ∧ ps.length = 22 ∧
      ∀ r, r ∈ allPatterns ps ↔ r ∈ extras) ∧
    ((∃ cfg err, NewConfig sys path extras = .ok (cfg, some err)) ↔
      ∃ r ∈ extras, fails sys.compile r = true) ∧
    ((∀ r ∈ extras, fails sys.compile r = false) →
      ∃ c, NewConfig sys path extras = .ok (some c, none) ∧ c.Palette.length = 22 ∧
        c.Palette.map (fun p => p.Bg) = defaultColors ∧
        ∀ p ∈ c.Palette, p.Fg = "") := by
  have hload := loadConfig_stat_failed sys path msg hstat
  have hlen : (defaultPalette Rx).length = 22 := by simp [defaultPalette, defaultColors]
  have hmem : ∀ r, r ∈ allPatterns (addShares (defaultPalette Rx)
      (fun k => extraShare 22 k 0 extras ++ groupShare 22 k extras.length [])) ↔
      r ∈ extras := by
    intro r
    rw [mem_allPatterns_addShares]
    constructor
    · rintro ⟨k, p, hk, hr | hr⟩
      · have hp := List.getElem?_mem hk
        simp only [defaultPalette, List.mem_map] at hp
        obtain ⟨v, _, rfl⟩ := hp
        simp at hr
      · rw [groupShare_nil, List.append_nil] at hr
        exact (extraShare_sublist 22 k 0 extras).subset hr
    · intro hr
      obtain ⟨i, hi⟩ := List.mem_iff_getElem?.1 hr
      have hlt : i % 22 < (defaultPalette Rx).length := by
        rw [hlen]
        exact Nat.mod_lt i (by decide)
      refine ⟨i % 22, (defaultPalette Rx)[i % 22], List.getElem?_eq_getElem hlt, Or.inr ?_⟩
      rw [groupShare_nil, List.append_nil]
      have := mem_extraShare 22 0 i extras r hi
      rwa [Nat.zero_add] at this
  have hiff := NewConfig_error_iff sys path extras _ hload
  rw [ensurePalette_empty] at hiff
  simp only [hlen] at hiff
  refine ⟨?_, hload, ?_, ?_, ?_, ?_⟩
  · intro d
    have h1 : loadConfig { sys with decode := d } path = (⟨[], []⟩, none) :=
      loadConfig_stat_failed _ path msg hstat
    rw [NewConfig_after_load _ path extras _ h1, NewConfig_after_load sys path extras _ hload]
  · rw [hload, ensurePalette_empty]
  · refine ⟨_, distribute_eq (defaultPalette Rx) extras [] (by rw [hlen]; decide), ?_, ?_⟩
    · rw [length_addShares, hlen]
    · rw [hlen]
      exact hmem
  · rw [hiff]
    constructor
    · rintro ⟨r, hr, hf⟩
      exact ⟨r, (hmem r).1 hr, hf⟩
    · rintro ⟨r, hr, hf⟩
      exact ⟨r, (hmem r).2 hr, hf⟩
  · intro hall
    have hall' : ∀ r ∈ allPatterns (addShares (ensurePalette (⟨[], []⟩ : Config Rx)).Palette
        (fun k => extraShare (ensurePalette (⟨[], []⟩ : Config Rx)).Palette.length k 0 extras ++
          groupShare (ensurePalette (⟨[], []⟩ : Config Rx)).Palette.length k extras.length
            (ensurePalette (⟨[], []⟩ : Config Rx)).Match)), fails sys.compile r = false := by
      rw [ensurePalette_empty]
      simp only [hlen]
      intro r hr
      exact hall r ((hmem r).1 hr)
    obtain ⟨c, hc, _, hf2⟩ := NewConfig_ok_of sys path extras _ hload hall'
    rw [ensurePalette_empty] at hf2
    simp only [hlen] at hf2
    have hslot : ∀ p ∈ c.Palette, p.Fg = "" ∧ p.Bg ∈ defaultColors := by
      intro p hp
      obtain ⟨k, hk⟩ := List.mem_iff_getElem?.1 hp
      obtain ⟨p0, hp0, hfg, hbg, _⟩ := forall₂_getElem? hf2.flip hk
      rw [getElem?_addShares] at hp0
      cases hd : (defaultPalette Rx)[k]? with
      | none => rw [hd] at hp0; cases hp0
      | some q =>
        rw [hd] at hp0
        simp only [Option.map_some', Option.some.injEq] at hp0
        subst hp0
        have hq := List.getElem?_mem hd
        simp only [defaultPalette, List.mem_map] at hq
        obtain ⟨v, hv, rfl⟩ := hq
        exact ⟨hfg, by rw [hbg]; exact hv⟩
    refine ⟨c, hc, ?_, ?_, fun p hp => (hslot p hp).1⟩
    · rw [← hf2.length_eq, length_addShares, hlen]
    · apply List.ext_getElem?
      intro k
      rw [List.getElem?_map]
      cases hk : c.Palette[k]? with
      | none =>
        have h1 : c.Palette.length ≤ k := List.getElem?_eq_none_iff.1 hk
        have h2 : c.Palette.length = 22 := by rw [← hf2.length_eq, length_addShares, hlen]
        have h3 : defaultColors.length ≤ k := by
          have : defaultColors.length = 22 := by simp [defaultColors]
          omega
        rw [List.getElem?_eq_none_iff.2 h3]
        rfl
      | some p =>
        obtain ⟨p0, hp0, _, hbg, _⟩ := forall₂_getElem? hf2.flip hk
        rw [getElem?_addShares] at hp0
        cases hd : (defaultPalette Rx)[k]? with
        | none => rw [hd] at hp0; cases hp0
        | some q =>
          rw [hd] at hp0
          simp only [Option.map_some', Option.some.injEq] at hp0
          subst hp0
          simp only [defaultPalette, List.getElem?_map] at hd
          cases hv : defaultColors[k]? with
          | none => rw [hv] at hd; cases hd
          | some v =>
            rw [hv] at hd
            simp only [Option.map_some', Option.some.injEq] at hd
            subst hd
            simp only [Option.map_some', hbg]

/-- C13 with a path that does not exist and three extra patterns of which two
do not compile: the error names `(`, which sits in slot 1, before `[` in
slot 2. -/
theorem NewConfig_missing_source_witness :
    tableSys.stat "none.yml" = .failed "no such file or directory" ∧
    ((∃ cfg err, NewConfig tableSys "none.yml" ["x0", "(", "["] = .ok (cfg, some err)) ↔
      ∃ r ∈ ["x0", "(", "["], fails tableSys.compile r = true) ∧
    NewConfig tableSys "none.yml" ["x0", "(", "["] =
      .ok (none, some "WROING REGEXP '(': missing closing )") :=
  have hstat : tableSys.stat "none.yml" = .failed "no such file or directory" := rfl
  have h := NewConfig_missing_source tableSys "none.yml" _ ["x0", "(", "["] hstat
  ⟨hstat, h.2.2.2.2.1, rfl⟩

/-- C14, non-empty palette. `NewConfig` never panics: the palette has at least
one slot when the distribution starts, whatever the source contained; before
the access for extra pattern `t` the cursor is `t mod N`, before the access
for match group `t` it is `(M + t) mod N`, both below the number `N` of slots,
which the loops do not change; and a configuration returned by `NewConfig`
has at least one slot. -/
theorem NewConfig_palette_nonempty {Rx : Type} (sys : Sys Rx) (path : String)
    (extras : List String) :
    (∃ r, NewConfig sys path extras = .ok r) ∧
    (∀ c err, NewConfig sys path extras = .ok (some c, err) → 1 ≤ c.Palette.length) ∧
    (∀ c1 : Config Rx, 1 ≤ (ensurePalette c1).Palette.length ∧
      (∃ ps, distribute (ensurePalette c1).Palette extras (ensurePalette c1).Match = .ok ps ∧
        ps.length = (ensurePalette c1).Palette.length) ∧
      (∀ t x, extras[t]? = some x → ∃ ps',
        distributeRegexps (ensurePalette c1).Palette 0 (extras.take t) =
          .ok (ps', t % (ensurePalette c1).Palette.length) ∧
        ps'.length = (ensurePalette c1).Palette.length ∧
        t % (ensurePalette c1).Palette.length < ps'.length) ∧
      (∀ t g, (ensurePalette c1).Match[t]? = some g → ∃ ps1 ps',
        distributeRegexps (ensurePalette c1).Palette 0 extras =
          .ok (ps1, extras.length % (ensurePalette c1).Palette.length) ∧
        distributeMatch ps1 (extras.length % (ensurePalette c1).Palette.length)
            ((ensurePalette c1).Match.take t) =
          .ok (ps', (extras.length + t) % (ensurePalette c1).Palette.length) ∧
        ps'.length = (ensurePalette c1).Palette.length ∧
        (extras.length + t) % (ensurePalette c1).Palette.length < ps'.length)) := by
  refine ⟨?_, ?_, ?_⟩
  · cases hl : loadConfig sys path with
    | mk c1 e =>
      cases e with
      | some err => exact ⟨(none, withStack (some err)), by simp [NewConfig, hl]⟩
      | none =>
        rw [NewConfig_after_load sys path extras c1 hl]
        split
        · exact ⟨_, rfl⟩
        · exact ⟨_, rfl⟩
  · intro c err hc
    cases hl : loadConfig sys path with
    | mk c1 e =>
      cases e with
      | some err' => simp [NewConfig, hl] at hc
      | none =>
        rw [NewConfig_after_load sys path extras c1 hl] at hc
        split at hc
        · cases hc
        · rename_i ps' hps
          cases hc
          have h2 := (compileRegexps_forall₂ _ _ _ hps).2
          have h3 := h2.length_eq
          rw [length_addShares] at h3
          have := ensurePalette_pos c1
          simp only
          omega
  · intro c1
    have hn := ensurePalette_pos c1
    refine ⟨hn, ⟨_, distribute_eq _ _ _ hn, length_addShares _ _⟩, ?_, ?_⟩
    · intro t x hx
      have ht : t < extras.length := (List.getElem?_eq_some.1 hx).1
      have h1 := distributeRegexps_eq (ensurePalette c1).Palette 0 (extras.take t) hn
      rw [Nat.zero_mod, Nat.zero_add, List.length_take, Nat.min_eq_left (le_of_lt ht)] at h1
      refine ⟨_, h1, length_addShares _ _, ?_⟩
      rw [length_addShares]
      exact Nat.mod_lt _ hn
    · intro t g hg
      have ht : t < (ensurePalette c1).Match.length := (List.getElem?_eq_some.1 hg).1
      have h1 := distributeRegexps_eq (ensurePalette c1).Palette 0 extras hn
      rw [Nat.zero_mod, Nat.zero_add] at h1
      have hn' : 0 < (addShares (ensurePalette c1).Palette
          (fun k => extraShare (ensurePalette c1).Palette.length k 0 extras)).length := by
        rw [length_addShares]
        exact hn
      have h2 := distributeMatch_eq (addShares (ensurePalette c1).Palette
        (fun k => extraShare (ensurePalette c1).Palette.length k 0 extras)) extras.length
        ((ensurePalette c1).Match.take t) hn'
      rw [length_addShares, List.length_take, Nat.min_eq_left (le_of_lt ht)] at h2
      refine ⟨_, _, h1, h2, ?_, ?_⟩
      · rw [length_addShares, length_addShares]
      · rw [length_addShares, length_addShares]
        exact Nat.mod_lt _ hn

/-- C14 with the file `cfg.yml` (two slots, three groups) and five extra
patterns: a configuration with two slots is returned. -/
theorem NewConfig_palette_nonempty_witness :
    (∃ r, NewConfig tableSys "cfg.yml" ["x0", "x1", "x2", "x3", "x4"] = .ok r) ∧
    (∃ c, NewConfig tableSys "cfg.yml" ["x0", "x1", "x2", "x3", "x4"] = .ok (some c, none) ∧
      c.Palette.length = 2) ∧
    (∃ r, NewConfig tableSys "none.yml" [] = .ok r) :=
  ⟨(NewConfig_palette_nonempty tableSys "cfg.yml" ["x0", "x1", "x2", "x3", "x4"]).1,
    ⟨_, rfl, rfl⟩,
    (NewConfig_palette_nonempty tableSys "none.yml" []).1⟩

/-! ## More lemmas on `processLine` -/

/-- One loop iteration in terms of the winner of its span. -/
theorem renderSpan_winner {Rx : Type} (env : Env Rx) (Cfg : Config Rx) (line : GoString)
    (m : MatchMap) (left right : Nat) :
    renderSpan env Cfg line m left right =
      match winner m left right with
      | none => slice line left right
      | some k =>
        match Cfg.Palette[k]? with
        | none => .error .indexRange
        | some p => (slice line left right).map (env.render (styleOf p)) := by
  cases hw : winner m left right with
  | none => exact renderSpan_none env Cfg line m left right hw
  | some k =>
    cases hp : Cfg.Palette[k]? with
    | some p =>
      rw [renderSpan_some env Cfg line m left right hw hp]
      simp only [hp]
    | none =>
      rcases winner_spec m left right with ⟨hw', _⟩ | ⟨k', hw', hmax, hmem, _⟩
      · rw [hw'] at hw
        cases hw
      · rw [hw'] at hw
        cases hw
        have hne : (paletteList m left right).length ≠ 0 := by
          intro h0
          rw [List.length_eq_zero] at h0
          rw [h0] at hmem
          simp at hmem
        simp only [renderSpan, hne, if_false, hmax, index, bind, Except.bind, hp]

/-- One loop iteration does not depend on the order in which the map is
visited. -/
theorem renderSpan_perm {Rx : Type} (env env' : Env Rx) (hr : env.render = env'.render)
    (Cfg : Config Rx) (line : GoString) {m m' : MatchMap} (h : m'.Perm m) (left right : Nat) :
    renderSpan env Cfg line m' left right = renderSpan env' Cfg line m left right := by
  rw [renderSpan_winner, renderSpan_winner, winner_perm h, hr]

theorem spanLoop_congr {Rx : Type} (env env' : Env Rx) (hr : env.render = env'.render)
    (Cfg : Config Rx) (line : GoString) (m : MatchMap) (l : List Nat) (i : Nat)
    (b : GoString) :
    spanLoop env Cfg line m i b l = spanLoop env' Cfg line m i b l := by
  induction l generalizing i b with
  | nil => simp [spanLoop]
  | cons a t ih =>
    cases t with
    | nil => simp [spanLoop]
    | cons c t' =>
      have h1 : renderSpan env Cfg line ((env.rangeSpan i).visit m) a c =
          renderSpan env' Cfg line ((env'.rangeSpan i).visit m) a c := by
        rw [renderSpan_perm env env' hr Cfg line ((env.rangeSpan i).perm m),
          ← renderSpan_perm env' env' rfl Cfg line ((env'.rangeSpan i).perm m)]
      simp only [spanLoop, h1]
      cases renderSpan env' Cfg line ((env'.rangeSpan i).visit m) a c with
      | error f => rfl
      | ok s => exact ih (i + 1) (b ++ s)

theorem piece_no_winner {Rx : Type} (env : Env Rx) (Cfg : Config Rx) (line : GoString)
    (sp : Span) (h : sp.winner = none) : piece env Cfg line sp = rawText line sp := by
  simp [piece, h]

/-! ## The claims on zero-width matches, styles, map order and panics -/

/-- C15, zero-width matches. Every end point of a match interval, so the
offset `k` of a zero-width interval `[k,k]`, is a cut point; every emitted span
has `left < right`; a zero-width interval never passes the test of line 163
for such a span, and a winning slot owns an interval of positive width that
contains the span. When every match interval on the line is zero-width, no
span has a winner, and `processLine` returns the line unchanged (the offsets
lying in the line). -/
theorem processLine_zero_width {Rx : Type} (env : Env Rx) (Cfg : Config Rx)
    (line : GoString) :
    (∀ k v, Owns (palette2indexes env.findAll Cfg line) k v →
      v.1 ∈ indexes env Cfg line ∧ v.2 ∈ indexes env Cfg line) ∧
    (∀ sp ∈ spans env Cfg line, sp.left < sp.right) ∧
    (∀ (v : Interval) (left right : Nat), left < right → v.1 = v.2 →
      covers v left right = false) ∧
    (∀ sp ∈ spans env Cfg line, ∀ w, sp.winner = some w →
      ∃ v, Owns (palette2indexes env.findAll Cfg line) w v ∧ v.1 < v.2 ∧
        v.1 ≤ sp.left ∧ sp.right ≤ v.2) ∧
    ((∀ p ∈ Cfg.Palette, ∀ r ∈ p.RegexpList, ∀ v ∈ env.findAll r line, v.1 = v.2) →
      (∀ sp ∈ spans env Cfg line, sp.winner = none) ∧
      (InBounds env.findAll Cfg line → processLine env Cfg line = .ok line)) := by
  have hwin : ∀ sp ∈ spans env Cfg line, ∀ w, sp.winner = some w →
      ∃ v, Owns (palette2indexes env.findAll Cfg line) w v ∧ v.1 < v.2 ∧
        v.1 ≤ sp.left ∧ sp.right ≤ v.2 := by
    intro sp hsp w hw
    obtain ⟨j, hj, rfl⟩ := mem_spans hsp
    have hlt := sorted_getElem_lt (sorted_cutPoints line (palette2indexes env.findAll Cfg line))
      hj (Nat.lt_succ_self j)
    simp only at hw
    rcases winner_spec (palette2indexes env.findAll Cfg line)
      (cutPoints line (palette2indexes env.findAll Cfg line))[j]
      (cutPoints line (palette2indexes env.findAll Cfg line))[j + 1] with
      ⟨hw', _⟩ | ⟨k', hw', _, hmem, _⟩
    · rw [hw'] at hw
      cases hw
    · rw [hw'] at hw
      cases hw
      obtain ⟨v, ho, hc⟩ := (mem_paletteList _ _ _ _).1 hmem
      obtain ⟨h1, h2⟩ := (covers_iff v (le_of_lt hlt)).1 hc
      exact ⟨v, ho, by omega, h1, h2⟩
  refine ⟨?_, ?_, ?_, hwin, ?_⟩
  · intro k v ho
    rw [indexes_eq]
    constructor
    · exact (mem_cutPoints _ _ _).2 ((mem_collectIndexes _ _ _).2
        (Or.inr (Or.inr ⟨k, v, ho, Or.inl rfl⟩)))
    · exact (mem_cutPoints _ _ _).2 ((mem_collectIndexes _ _ _).2
        (Or.inr (Or.inr ⟨k, v, ho, Or.inr rfl⟩)))
  · intro sp hsp
    obtain ⟨j, hj, rfl⟩ := mem_spans hsp
    exact sorted_getElem_lt (sorted_cutPoints _ _) hj (Nat.lt_succ_self j)
  · intro v left right hlt hv
    unfold covers
    simp only [decide_eq_false_iff_not]
    omega
  · intro hz
    have hnone : ∀ sp ∈ spans env Cfg line, sp.winner = none := by
      intro sp hsp
      cases hw : sp.winner with
      | none => rfl
      | some w =>
        obtain ⟨v, ho, hlt, _⟩ := hwin sp hsp w hw
        obtain ⟨p, hp, r, hr, hv⟩ := (owns_palette2indexes env.findAll Cfg line w v).1 ho
        have := hz p (List.getElem?_mem hp) r hr v hv
        omega
    refine ⟨hnone, ?_⟩
    intro hb
    rw [processLine_pieces env Cfg line hb]
    have : (spans env Cfg line).map (piece env Cfg line) =
        (spans env Cfg line).map (rawText line) :=
      List.map_congr_left (fun sp hsp => piece_no_winner env Cfg line sp (hnone sp hsp))
    rw [this, spans_rawText env Cfg line hb]

/-- C15 on the line `ab` with the pattern `x*`, which matches the empty string
at 0, 1 and 2: the cut points are 0, 1, 2, no span has a winner and the line
is returned as it is. -/
theorem processLine_zero_width_witness :
    (∀ p ∈ zeroCfg.Palette, ∀ r ∈ p.RegexpList, ∀ v ∈ tableEnv.findAll r azLine,
      v.1 = v.2) ∧
    InBounds tableEnv.findAll zeroCfg azLine ∧
    indexes tableEnv zeroCfg azLine = [0, 1, 2] ∧
    (∀ sp ∈ spans tableEnv zeroCfg azLine, sp.winner = none) ∧
    processLine tableEnv zeroCfg azLine = .ok azLine :=
  have hz : ∀ p ∈ zeroCfg.Palette, ∀ r ∈ p.RegexpList, ∀ v ∈ tableEnv.findAll r azLine,
      v.1 = v.2 := by decide
  have hb : InBounds tableEnv.findAll zeroCfg azLine := by
    unfold InBounds
    decide
  have h := (processLine_zero_width tableEnv zeroCfg azLine).2.2.2.2 hz
  ⟨hz, hb, by decide, h.1, h.2 hb⟩

/-- C16, style selection. The style of a slot: neither colour set gives the
fallback foreground `#ff3333` and no background; only the foreground set gives
that foreground and no background; only the background set gives that
background with the foreground `#000000`; both set gives both. A span won by
slot `k` is written as its raw text rendered in the style of slot `k`. -/
theorem processLine_style_selection {Rx : Type} (palette : Palette Rx) :
    (palette.Fg = "" → palette.Bg = "" → styleOf palette = ⟨"#ff3333", none⟩) ∧
    (palette.Fg ≠ "" → palette.Bg = "" → styleOf palette = ⟨palette.Fg, none⟩) ∧
    (palette.Fg = "" → palette.Bg ≠ "" → styleOf palette = ⟨"#000000", some palette.Bg⟩) ∧
    (palette.Fg ≠ "" → palette.Bg ≠ "" → styleOf palette = ⟨palette.Fg, some palette.Bg⟩) ∧
    (∀ (env : Env Rx) (Cfg : Config Rx) (line : GoString) (m : MatchMap)
      (left right k : Nat), winner m left right = some k → Cfg.Palette[k]? = some palette →
      renderSpan env Cfg line m left right =
        (slice line left right).map (env.render (styleOf palette))) := by
  refine ⟨?_, ?_, ?_, ?_, ?_⟩
  · intro h1 h2
    simp [styleOf, h1, h2]
  · intro h1 h2
    simp [styleOf, h1, h2]
  · intro h1 h2
    simp [styleOf, h1, h2]
  · intro h1 h2
    simp [styleOf, h1, h2]
  · intro env Cfg line m left right k hw hp
    exact renderSpan_some env Cfg line m left right hw hp

/-- C16 on four slots, one for each case. -/
theorem processLine_style_selection_witness :
    styleOf (⟨"", "", [], []⟩ : Palette TableRx) = ⟨"#ff3333", none⟩ ∧
    styleOf (⟨"#aaaaaa", "", [], []⟩ : Palette TableRx) = ⟨"#aaaaaa", none⟩ ∧
    styleOf (⟨"", "#bbbbbb", [], []⟩ : Palette TableRx) = ⟨"#000000", some "#bbbbbb"⟩ ∧
    styleOf (⟨"#aaaaaa", "#bbbbbb", [], []⟩ : Palette TableRx) =
      ⟨"#aaaaaa", some "#bbbbbb"⟩ :=
  ⟨(processLine_style_selection (⟨"", "", [], []⟩ : Palette TableRx)).1 rfl rfl,
    (processLine_style_selection (⟨"#aaaaaa", "", [], []⟩ : Palette TableRx)).2.1
      (by decide) rfl,
    (processLine_style_selection (⟨"", "#bbbbbb", [], []⟩ : Palette TableRx)).2.2.1
      rfl (by decide),
    (processLine_style_selection (⟨"#aaaaaa", "#bbbbbb", [], []⟩ : Palette TableRx)).2.2.2.1
      (by decide) (by decide)⟩

/-- C18, map iteration order. For every line and configuration the cut
points, the spans and the value of `processLine` (a string or a panic) are the
same for every order in which the loop of line 149 visits the map and every
order in which the loop of line 161 visits it in each iteration, the orders
being chosen independently. -/
theorem processLine_map_order {Rx : Type} (findAll : Rx → GoString → List Interval)
    (render : HexStyle → GoString → GoString) (o1 o1' : RangeOrder)
    (o2 o2' : Nat → RangeOrder) (Cfg : Config Rx) (line : GoString) :
    indexes ⟨findAll, render, o1, o2⟩ Cfg line = indexes ⟨findAll, render, o1', o2'⟩ Cfg line ∧
    spans ⟨findAll, render, o1, o2⟩ Cfg line = spans ⟨findAll, render, o1', o2'⟩ Cfg line ∧
    processLine ⟨findAll, render, o1, o2⟩ Cfg line =
      processLine ⟨findAll, render, o1', o2'⟩ Cfg line ∧
    (∀ i left right k,
      k ∈ paletteList ((o2 i).visit (palette2indexes findAll Cfg line)) left right ↔
      k ∈ paletteList ((o2' i).visit (palette2indexes findAll Cfg line)) left right) := by
  have hidx : indexes ⟨findAll, render, o1, o2⟩ Cfg line =
      indexes ⟨findAll, render, o1', o2'⟩ Cfg line := by
    rw [indexes_eq, indexes_eq]
  refine ⟨hidx, ?_, ?_, ?_⟩
  · by_cases hne : line = []
    · simp [spans, hne]
    · rw [spans_eq _ Cfg line hne, spans_eq _ Cfg line hne]
  · unfold processLine
    by_cases hne : line = []
    · simp [hne]
    · simp only [hne, if_false]
      have h1 : cutPoints line (o1.visit (palette2indexes findAll Cfg line)) =
          cutPoints line (o1'.visit (palette2indexes findAll Cfg line)) := by
        rw [cutPoints_perm (o1.perm _), cutPoints_perm (o1'.perm _)]
      rw [h1]
      exact spanLoop_congr ⟨findAll, render, o1, o2⟩ ⟨findAll, render, o1', o2'⟩ rfl Cfg line
        _ _ 0 []
  · intro i left right k
    rw [paletteList_perm_mem ((o2 i).perm _), paletteList_perm_mem ((o2' i).perm _)]

/-- C18 on `abcabc`: both loops visiting the map as listed, or the first
backwards and the second as listed in even iterations and backwards in odd
ones, give the same output. -/
theorem processLine_map_order_witness :
    processLine ⟨tableEnv.findAll, tableEnv.render, RangeOrder.asListed,
        fun _ => RangeOrder.asListed⟩ abcCfg abcLine =
      processLine ⟨tableEnv.findAll, tableEnv.render, RangeOrder.backwards,
        fun i => if i % 2 = 0 then RangeOrder.asListed else RangeOrder.backwards⟩
        abcCfg abcLine ∧
    paletteList (RangeOrder.asListed.visit (palette2indexes tableEnv.findAll abcCfg abcLine))
      1 3 = [0, 1] ∧
    paletteList (RangeOrder.backwards.visit (palette2indexes tableEnv.findAll abcCfg abcLine))
      1 3 = [1, 0] :=
  ⟨(processLine_map_order tableEnv.findAll tableEnv.render RangeOrder.asListed
      RangeOrder.backwards (fun _ => RangeOrder.asListed)
      (fun i => if i % 2 = 0 then RangeOrder.asListed else RangeOrder.backwards)
      abcCfg abcLine).2.2.1, by decide, by decide⟩

/-- C19, no run-time failure. For every line and configuration whose match
intervals lie in the line, `processLine` returns a string; in every iteration
the two cut points satisfy `left ≤ right ≤ len(line)` and the slice
`line[left:right]` succeeds, `funk.MaxInt`, called when `paletteList` is not
empty, returns a slot index that is a valid index of `Cfg.Palette`, and the
iteration writes its text without panic. -/
theorem processLine_no_fault {Rx : Type} (env : Env Rx) (Cfg : Config Rx) (line : GoString)
    (hb : InBounds env.findAll Cfg line) :
    (∃ out, processLine env Cfg line = .ok out) ∧
    ∀ i left right, (indexes env Cfg line)[i]? = some left →
      (indexes env Cfg line)[i + 1]? = some right →
      left ≤ right ∧ right ≤ line.length ∧
      (∃ text, slice line left right = .ok text) ∧
      ((paletteList ((env.rangeSpan i).visit (palette2indexes env.findAll Cfg line))
          left right).length ≠ 0 →
        ∃ k p, maxInt (paletteList ((env.rangeSpan i).visit
            (palette2indexes env.findAll Cfg line)) left right) = .ok k ∧
          index Cfg.Palette k = .ok p) ∧
      ∃ s, renderSpan env Cfg line ((env.rangeSpan i).visit
        (palette2indexes env.findAll Cfg line)) left right = .ok s := by
  refine ⟨⟨_, processLine_pieces env Cfg line hb⟩, ?_⟩
  intro i left right hl hr
  obtain ⟨hlt, _, _⟩ := indexes_pair env Cfg line hl hr
  have hle : right ≤ line.length :=
    cutPoints_le line _ (fun k v ho => owns_bounds_visit hb env.rangeCut k v ho) right
      (List.getElem?_mem hr)
  have hkeys : ∀ k ∈ paletteList ((env.rangeSpan i).visit
      (palette2indexes env.findAll Cfg line)) left right, k < Cfg.Palette.length := by
    intro k hk
    obtain ⟨v, ho, _⟩ := (mem_paletteList k _ left right).1 hk
    exact owns_key_lt ((owns_perm ((env.rangeSpan i).perm _) k v).1 ho)
  refine ⟨le_of_lt hlt, hle,
    ⟨(line.drop left).take (right - left), by simp [slice, le_of_lt hlt, hle]⟩, ?_,
    ⟨_, renderSpan_eq env Cfg line _ (le_of_lt hlt) hle hkeys⟩⟩
  intro hne
  have hne' : paletteList ((env.rangeSpan i).visit (palette2indexes env.findAll Cfg line))
      left right ≠ [] := by
    intro h0
    rw [h0] at hne
    simp at hne
  obtain ⟨k, hk, hmem, _⟩ := maxInt_spec _ hne'
  have hlt' := hkeys k hmem
  exact ⟨k, Cfg.Palette[k], hk, by simp [index, List.getElem?_eq_getElem hlt']⟩

/-- C19 on `abcabc`: the output, with every coloured span in brackets. -/
theorem processLine_no_fault_witness :
    InBounds tableEnv.findAll abcCfg abcLine ∧
    (∃ out, processLine tableEnv abcCfg abcLine = .ok out) ∧
    processLine tableEnv abcCfg abcLine =
      .ok [91, 97, 93, 91, 98, 99, 93, 91, 97, 93, 91, 98, 99, 93] :=
  have hb : InBounds tableEnv.findAll abcCfg abcLine := by
    unfold InBounds
    decide
  ⟨hb, (processLine_no_fault tableEnv abcCfg abcLine hb).1, rfl⟩

/-! ## The frame of the distribution -/

theorem appendPatterns_perm {Rx : Type} (ps ps' : List (Palette Rx)) (j : Nat)
    (ms : List String) (h : appendPatterns ps j ms = .ok ps') :
    (allPatterns ps').Perm (allPatterns ps ++ ms) := by
  induction ps generalizing j ps' with
  | nil => simp [appendPatterns] at h
  | cons q rest ih =>
    cases j with
    | zero =>
      simp only [appendPatterns, List.getElem?_cons_zero, List.set_cons_zero,
        Except.ok.injEq] at h
      subst h
      rw [allPatterns_cons, allPatterns_cons]
      simp only [List.append_assoc]
      exact List.Perm.append_left _ List.perm_append_comm
    | succ j' =>
      simp only [appendPatterns, List.getElem?_cons_succ, List.set_cons_succ] at h
      cases hq : rest[j']? with
      | none => rw [hq] at h; cases h
      | some p =>
        rw [hq] at h
        simp only [Except.ok.injEq] at h
        subst h
        have h1 : appendPatterns rest j' ms =
            .ok (rest.set j' { p with RegexpStringList := p.RegexpStringList ++ ms }) := by
          simp [appendPatterns, hq]
        have h2 := ih _ j' h1
        rw [allPatterns_cons, allPatterns_cons, List.append_assoc]
        exact List.Perm.append_left _ h2

theorem distributeBlocks_perm {Rx : Type} (blocks : List (List String))
    (ps ps' : List (Palette Rx)) (j j' : Nat)
    (h : distributeBlocks ps j blocks = .ok (ps', j')) :
    (allPatterns ps').Perm (allPatterns ps ++ blocks.flatten) := by
  induction blocks generalizing ps j with
  | nil =>
    simp only [distributeBlocks, Except.ok.injEq, Prod.mk.injEq] at h
    rw [h.1]
    simp
  | cons b rest ih =>
    unfold distributeBlocks at h
    cases ha : appendPatterns ps j b with
    | error f => rw [ha] at h; cases h
    | ok ps1 =>
      rw [ha] at h
      have h1 := ih ps1 _ h
      have h2 := appendPatterns_perm ps ps1 j b ha
      rw [List.flatten_cons, ← List.append_assoc]
      exact h1.trans (List.Perm.append_right _ h2)

theorem flatten_singletons (extras : List String) :
    (extras.map (fun m => [m])).flatten = extras := by
  induction extras with
  | nil => rfl
  | cons m rest ih => simp [ih]

theorem flatten_groups (groups : List MatchGroup) :
    (groups.map (fun m => m.RegexpStringList)).flatten =
      groups.flatMap (fun m => m.RegexpStringList) := by
  induction groups with
  | nil => rfl
  | cons m rest ih => simp [ih]

theorem length_flatMap_groups (groups : List MatchGroup) :
    (groups.flatMap (fun m => m.RegexpStringList)).length =
      (groups.map (fun m => m.RegexpStringList.length)).sum := by
  induction groups with
  | nil => rfl
  | cons m rest ih => simp [ih]

/-- C20, the frame of the distribution. For a palette of at least one slot the
two loops of lines 47-62 do not panic and keep the number of slots, their
order, every foreground, background and compiled list; the pattern strings a
slot had are the beginning of those it has afterwards; the pattern strings of
all slots afterwards are, up to order, those of before together with the `M`
extra patterns and the patterns of the match groups, each once, so that their
number grows by `M` plus the sum of the sizes of the groups. -/
theorem NewConfig_distribution_frame {Rx : Type} (ps : List (Palette Rx))
    (extras : List String) (groups : List MatchGroup) (hn : 1 ≤ ps.length) :
    ∃ ps', distribute ps extras groups = .ok ps' ∧
      ps'.length = ps.length ∧
      ps'.map (fun p => p.Fg) = ps.map (fun p => p.Fg) ∧
      ps'.map (fun p => p.Bg) = ps.map (fun p => p.Bg) ∧
      ps'.map (fun p => p.RegexpList) = ps.map (fun p => p.RegexpList) ∧
      (∀ (k : Nat) (p p' : Palette Rx), ps[k]? = some p → ps'[k]? = some p' →
        p.RegexpStringList <+: p'.RegexpStringList) ∧
      (allPatterns ps').Perm
        (allPatterns ps ++ extras ++ groups.flatMap (fun m => m.RegexpStringList)) ∧
      (allPatterns ps').length = (allPatterns ps).length + extras.length +
        (groups.map (fun m => m.RegexpStringList.length)).sum := by
  have hperm : ∀ ps', distribute ps extras groups = .ok ps' → (allPatterns ps').Perm
      (allPatterns ps ++ extras ++ groups.flatMap (fun m => m.RegexpStringList)) := by
    intro ps' h
    unfold distribute at h
    cases h1 : distributeRegexps ps 0 extras with
    | error f => rw [h1] at h; cases h
    | ok r1 =>
      obtain ⟨ps1, j1⟩ := r1
      rw [h1] at h
      simp only at h
      cases h2 : distributeMatch ps1 j1 groups with
      | error f => rw [h2] at h; cases h
      | ok r2 =>
        obtain ⟨ps2, j2⟩ := r2
        rw [h2] at h
        simp only [Except.ok.injEq] at h
        subst h
        rw [distributeRegexps_blocks] at h1
        rw [distributeMatch_blocks] at h2
        have p1 := distributeBlocks_perm _ _ _ _ _ h1
        have p2 := distributeBlocks_perm _ _ _ _ _ h2
        rw [flatten_singletons] at p1
        rw [flatten_groups] at p2
        exact p2.trans (List.Perm.append_right _ p1)
  have hd := distribute_eq ps extras groups hn
  have hp := hperm _ hd
  refine ⟨_, hd, length_addShares _ _, ?_, ?_, ?_, ?_, hp, ?_⟩
  · apply List.ext_getElem?
    intro k
    rw [List.getElem?_map, List.getElem?_map, getElem?_addShares]
    cases ps[k]? <;> rfl
  · apply List.ext_getElem?
    intro k
    rw [List.getElem?_map, List.getElem?_map, getElem?_addShares]
    cases ps[k]? <;> rfl
  · apply List.ext_getElem?
    intro k
    rw [List.getElem?_map, List.getElem?_map, getElem?_addShares]
    cases ps[k]? <;> rfl
  · intro k p p' hk hk'
    rw [getElem?_addShares, hk] at hk'
    simp only [Option.map_some', Option.some.injEq] at hk'
    subst hk'
    exact ⟨_, rfl⟩
  · rw [hp.length_eq, List.length_append, List.length_append, length_flatMap_groups]

/-- C20 with two slots, five extra patterns and three match groups: one
pattern before, nine afterwards. -/
theorem NewConfig_distribution_frame_witness :
    1 ≤ twoSlots.length ∧
    (∃ ps', distribute twoSlots ["x0", "x1", "x2", "x3", "x4"] threeGroups = .ok ps' ∧
      ps'.length = 2 ∧
      ps'.map (fun p => p.Fg) = ["", "#222222"] ∧
      ps'.map (fun p => p.Bg) = ["#111111", ""] ∧
      (allPatterns ps').length = 1 + 5 + 3) :=
  have hn : 1 ≤ twoSlots.length := by decide
  have h := NewConfig_distribution_frame twoSlots ["x0", "x1", "x2", "x3", "x4"] threeGroups hn
  ⟨hn, by
    obtain ⟨ps', h1, h2, h3, h4, _, _, _, h8⟩ := h
    exact ⟨ps', h1, h2, h3, h4, h8⟩⟩

/-! ## The read loop -/

theorem splitLine_record (r after : GoString) (hr : ∀ b ∈ r, b ≠ 10) :
    splitLine (r ++ 10 :: after) = some (r ++ [10], after) := by
  induction r with
  | nil => simp [splitLine]
  | cons b t ih =>
    have hb : b ≠ 10 := hr b (List.mem_cons_self _ _)
    have ht := ih (fun x hx => hr x (List.mem_cons_of_mem _ hx))
    simp [splitLine, hb, ht]

theorem splitLine_none (t : GoString) (ht : ∀ b ∈ t, b ≠ 10) : splitLine t = none := by
  induction t with
  | nil => rfl
  | cons b rest ih =>
    have hb : b ≠ 10 := ht b (List.mem_cons_self _ _)
    have h := ih (fun x hx => ht x (List.mem_cons_of_mem _ hx))
    simp [splitLine, hb, h]

theorem dropLast_record (r : GoString) : dropLast (r ++ [10]) = .ok r := by
  simp [dropLast, slice]

theorem recordsInput_cons (r : GoString) (rest : List GoString) (tail : GoString) :
    recordsInput (r :: rest) tail = r ++ 10 :: recordsInput rest tail := by
  simp [recordsInput]

theorem length_le_recordsInput (records : List GoString) (tail : GoString) :
    records.length ≤ (recordsInput records tail).length := by
  induction records with
  | nil => simp
  | cons r rest ih =>
    rw [recordsInput_cons]
    simp only [List.length_cons, List.length_append]
    omega

/-- The read loop on an input of newline-terminated records and a tail without
newline, with enough reads: one output record per input record, then the
return decided by the error that ends the stream. -/
theorem readLoop_records {Rx : Type} (env : Env Rx) (Cfg : Config Rx)
    (records outs : List GoString) (tail : GoString) (last : ReadError)
    (hrec : ∀ r ∈ records, ∀ b ∈ r, b ≠ 10) (htail : ∀ b ∈ tail, b ≠ 10)
    (hout : List.Forall₂ (fun r o => processLine env Cfg r = .ok o) records outs)
    (fuel : Nat) (hfuel : records.length < fuel) (out : GoString) :
    readLoop env Cfg fuel ⟨recordsInput records tail, last⟩ out =
      some (.ok (out ++ (outs.map (fun o => o ++ [10])).flatten,
        match last with
        | .eof => none
        | .other msg => some msg)) := by
  induction hout generalizing fuel out with
  | nil =>
    cases fuel with
    | zero => simp at hfuel
    | succ n =>
      have hs : splitLine tail = none := splitLine_none tail htail
      cases last <;> simp [readLoop, readString, recordsInput, hs, withStack]
  | @cons r o rs os hro _ ih =>
    cases fuel with
    | zero => simp at hfuel
    | succ n =>
      have hs := splitLine_record r (recordsInput rs tail)
        (hrec r (List.mem_cons_self _ _))
      have hn : rs.length < n := by
        simp only [List.length_cons] at hfuel
        omega
      have h := ih (fun x hx => hrec x (List.mem_cons_of_mem _ hx)) n hn (out ++ o ++ [10])
      simp only [List.append_assoc] at h
      simp only [readLoop, readString, recordsInput_cons, hs, dropLast_record, hro,
        List.map_cons, List.flatten_cons, List.append_assoc, h]

/-- C17, the record protocol of the read loop. For an input of `k` records,
each without newline and followed by one, then a tail without newline, then
the error that ends the stream, the match intervals lying in each record: the
loop writes exactly `k` output records, the `i`-th being the value of
`processLine` on the `i`-th record without its newline, followed by a newline,
in input order, and nothing for the tail; it returns nil when the stream ends
with `io.EOF` and the read error otherwise. One more read than there are bytes
is enough, and so is any number of reads above `k`. -/
theorem readAll_record_protocol {Rx : Type} (env : Env Rx) (Cfg : Config Rx)
    (records : List GoString) (tail : GoString) (last : ReadError)
    (hrec : ∀ r ∈ records, ∀ b ∈ r, b ≠ 10) (htail : ∀ b ∈ tail, b ≠ 10)
    (hb : ∀ r ∈ records, InBounds env.findAll Cfg r) :
    ∃ outs, List.Forall₂ (fun r o => processLine env Cfg r = .ok o) records outs ∧
      outs.length = records.length ∧
      readAll env Cfg ⟨recordsInput records tail, last⟩ =
        some (.ok ((outs.map (fun o => o ++ [10])).flatten,
          match last with
          | .eof => none
          | .other msg => some msg)) ∧
      ∀ fuel, records.length < fuel →
        readLoop env Cfg fuel ⟨recordsInput records tail, last⟩ [] =
          some (.ok ((outs.map (fun o => o ++ [10])).flatten,
            match last with
            | .eof => none
            | .other msg => some msg)) := by
  have hex : ∃ outs, List.Forall₂ (fun r o => processLine env Cfg r = .ok o) records outs := by
    induction records with
    | nil => exact ⟨[], List.Forall₂.nil⟩
    | cons r rest ih =>
      obtain ⟨os, hos⟩ := ih (fun x hx => hrec x (List.mem_cons_of_mem _ hx))
        (fun x hx => hb x (List.mem_cons_of_mem _ hx))
      exact ⟨_, List.Forall₂.cons
        (processLine_pieces env Cfg r (hb r (List.mem_cons_self _ _))) hos⟩
  obtain ⟨outs, houts⟩ := hex
  have hloop : ∀ fuel, records.length < fuel →
      readLoop env Cfg fuel ⟨recordsInput records tail, last⟩ [] =
        some (.ok ((outs.map (fun o => o ++ [10])).flatten,
          match last with
          | .eof => none
          | .other msg => some msg)) := by
    intro fuel hfuel
    have := readLoop_records env Cfg records outs tail last hrec htail houts fuel hfuel []
    simpa using this
  refine ⟨outs, houts, houts.length_eq.symm, ?_, hloop⟩
  unfold readAll
  apply hloop
  have := length_le_recordsInput records tail
  simp only
  omega

/-- C17 on the input `ab`, newline, `ab`, newline, `x`: two output records,
nothing for the tail `x`, nil at `io.EOF` and the error otherwise. -/
theorem readAll_record_protocol_witness :
    (∀ r ∈ [azLine, azLine], ∀ b ∈ r, b ≠ 10) ∧ (∀ b ∈ ([120] : GoString), b ≠ 10) ∧
    (∀ r ∈ [azLine, azLine], InBounds tableEnv.findAll azCfg r) ∧
    recordsInput [azLine, azLine] [120] = twoRecords ∧
    (∃ outs, List.Forall₂ (fun r o => processLine tableEnv azCfg r = .ok o)
        [azLine, azLine] outs ∧
      readAll tableEnv azCfg ⟨recordsInput [azLine, azLine] [120], .eof⟩ =
        some (.ok ((outs.map (fun o => o ++ [10])).flatten, none))) ∧
    readAll tableEnv azCfg ⟨twoRecords, .eof⟩ =
      some (.ok ([91, 97, 93, 91, 98, 93, 10, 91, 97, 93, 91, 98, 93, 10], none)) ∧
    readAll tableEnv azCfg ⟨twoRecords, .other "input/output error"⟩ =
      some (.ok ([91, 97, 93, 91, 98, 93, 10, 91, 97, 93, 91, 98, 93, 10],
        some "input/output error")) :=
  have hrec : ∀ r ∈ [azLine, azLine], ∀ b ∈ r, b ≠ 10 := by decide
  have htail : ∀ b ∈ ([120] : GoString), b ≠ 10 := by decide
  have hb : ∀ r ∈ [azLine, azLine], InBounds tableEnv.findAll azCfg r := by
    unfold InBounds
    decide
  ⟨hrec, htail, hb, by decide, by
    obtain ⟨outs, h1, _, h3, _⟩ :=
      readAll_record_protocol tableEnv azCfg [azLine, azLine] [120] .eof hrec htail hb
    exact ⟨outs, h1, h3⟩, rfl, rfl⟩

end Cmatch
